import Mathlib

/- Formal model of the ground-truth / recall core of
   scripts/create_and_test_large_index.py (GroundTruthTracker,
   calculate_recall, and the recall-summary block of test_search_with_stats).

   Modelling conventions, used throughout:
   * Python floats are modelled as exact rationals.
   * numpy square roots are irrational in general; every square-root-valued
     quantity is represented by an order-isomorphic rational image, documented
     at its definition, so that all comparisons, branch conditions, heap
     contents and sort orders of the source are preserved exactly.
   * The Python heapq min-heap is represented canonically by the list of its
     entries sorted in ascending tuple order; the operations the script uses
     (heappush, heap[0], heapreplace, len, iteration) only observe the
     multiset of entries and its minimum, which this canonical form realises.
   * A Python function that can raise is modelled with Except or with an
     Option-valued error component, and in-place mutation that survives an
     exception is modelled by returning the partially updated state. -/

namespace JVectorGT

/-- Python string comparison: str is compared lexicographically by code
point, which on the underlying character lists is the usual lexicographic
order. Defined recursively so that it evaluates by kernel reduction. -/
def charListLt : List Char → List Char → Bool
  | [], [] => false
  | [], _ :: _ => true
  | _ :: _, [] => false
  | a :: as, b :: bs => if a < b then true else if b < a then false else charListLt as bs

/-- Python comparison s < t on strings, via the character lists. -/
def pyStrLt (s t : String) : Bool := charListLt s.data t.data

/-- Comparison of two Python tuples (-dist, doc_id) as heapq compares them:
first componentwise on the float, then on the string. This is the reflexive
order x <= y, written as the negation of y < x of the underlying total order. -/
def entryLeB (x y : ℚ × String) : Bool :=
  if x.1 < y.1 then true
  else if y.1 < x.1 then false
  else !(pyStrLt y.2 x.2)

/-- Propositional form of entryLeB, the order in which the canonical heap
representation is kept sorted. -/
def entryLE (x y : ℚ × String) : Prop := entryLeB x y = true

instance : DecidableRel entryLE := fun x y => by
  unfold entryLE
  infer_instance

/-- Order used by get_ground_truth, which sorts the heap entries with
key -x[0] ascending, comparing keys only. -/
def keyLE (x y : ℚ × String) : Prop := -x.1 ≤ -y.1

instance : DecidableRel keyLE := fun x y => by
  unfold keyLE
  infer_instance

/-- Dot product of two vectors, as computed by np.dot on 1-D arrays of equal
length (and by the elementwise model of numpy arithmetic). -/
def dot (q v : List ℚ) : ℚ := (List.zipWith (· * ·) q v).sum

/-- Squared Euclidean norm of a vector: the sum of the squares of its
entries. np.linalg.norm computes its square root; the square root is strictly
monotone on the nonnegative reals, so the squared value is an
order-isomorphic representation of the norm, and positivity of the norm is
equivalent to positivity of normSq. -/
def normSq (v : List ℚ) : ℚ := dot v v

/-- Subtraction of two 1-D numpy arrays, with numpy broadcasting: equal
lengths subtract elementwise; a length-one operand is broadcast across the
other; any other shape combination raises a ValueError. -/
def npSub (a b : List ℚ) : Except String (List ℚ) :=
  if a.length = b.length then .ok (List.zipWith (· - ·) a b)
  else if b.length = 1 then .ok (a.map fun x => x - b.headI)
  else if a.length = 1 then .ok (b.map fun y => a.headI - y)
  else .error "operands could not be broadcast together"

/-- np.dot on two 1-D arrays: raises a ValueError unless the lengths agree. -/
def npDot (a b : List ℚ) : Except String ℚ :=
  if a.length = b.length then .ok (dot a b)
  else .error "shapes not aligned"

/-- The l2 branch of GroundTruthTracker.update (line 263):
np.linalg.norm(query_vector - vector_np). The distance value is represented
by its square (see normSq), an order-isomorphic image of the true distance;
the broadcast error of the subtraction propagates. -/
def l2DistSq (q v : List ℚ) : Except String ℚ :=
  (npSub q v).map normSq

/-- Squared l2 distance for operands of equal length, the total function the
l2 branch computes when no broadcasting is involved. -/
def sqDist (q v : List ℚ) : ℚ := normSq (List.zipWith (· - ·) q v)

/-- The cosine branch of GroundTruthTracker.update (lines 264-271).
The source computes query_norm and vector_norm with np.linalg.norm, and when
both are positive sets dist = 1 - np.dot(q, v) / (query_norm * vector_norm),
else dist = 1.0. Here positivity of a norm is tested as positivity of the
squared norm (equivalent, since the square root is strictly monotone and
vanishes only at 0), and the distance 1 - s, with s the cosine similarity, is
represented by 1 - sgn(s) * s^2: the map x to sgn(x) * x^2 is a strictly
increasing bijection of the reals, so this representation is an
order-isomorphic image of the true distance that moreover fixes the value
1.0 assigned by the zero-norm branch (s = 0 there). With rational inputs
sgn(s) * s^2 = sgn(dot) * dot^2 / (normSq q * normSq v) is rational. The
shape error of np.dot propagates; note that the source computes no dot
product at all when either norm vanishes. -/
def cosineDist (q v : List ℚ) : Except String ℚ :=
  if 0 < normSq q ∧ 0 < normSq v then
    (npDot q v).map fun d =>
      1 - (if d < 0 then -(d * d) else d * d) / (normSq q * normSq v)
  else .ok 1

/-- Distance dispatch of GroundTruthTracker.update (lines 262-273): the l2
metric, the cosine metric, or a ValueError for any other space_type. -/
def distOf (space_type : String) (q v : List ℚ) : Except String ℚ :=
  if space_type = "l2" then l2DistSq q v
  else if space_type = "cosine" then cosineDist q v
  else .error ("Unsupported space_type: " ++ space_type)

/-- A per-query heap: the heapq min-heap of (-dist, doc_id) tuples, in its
canonical sorted representation (ascending entryLE). -/
abbrev Heap := List (ℚ × String)

/-- heapq.heappush on the canonical representation: ordered insertion. -/
def heappush (heap : Heap) (e : ℚ × String) : Heap :=
  heap.orderedInsert entryLE e

/-- heapq.heapreplace on the canonical representation: pop the minimum
(heap[0], the head of the canonical form), then push the new entry. -/
def heapreplace (heap : Heap) (e : ℚ × String) : Heap :=
  heappush heap.tail e

/-- Per-query heap maintenance of update (lines 275-282): push while below
capacity k, evict-and-insert when the new distance is strictly below the
current worst -heap[0][0], otherwise discard. The entry pushed is the tuple
(-dist, doc_id). With k = 0 the source would raise an IndexError reading
heap[0] of an empty heap; the specification requires k >= 1 and all theorems
assume it. -/
def updateHeap (k : ℕ) (dist : ℚ) (doc_id : String) (heap : Heap) : Heap :=
  if heap.length < k then heappush heap (-dist, doc_id)
  else if dist < -(heap.headI).1 then heapreplace heap (-dist, doc_id)
  else heap

/-- State of a GroundTruthTracker: the constructor arguments plus the
per-query heaps. -/
structure GroundTruthTracker where
  query_vectors : List (List ℚ)
  k : ℕ
  space_type : String
  heaps : List Heap
  deriving DecidableEq

/-- GroundTruthTracker.__init__ (lines 233-249): stores the arguments and
creates one empty heap per query vector. No argument is validated here; in
particular any space_type string is accepted. -/
def GroundTruthTracker.init (query_vectors : List (List ℚ)) (k : ℕ)
    (space_type : String) : GroundTruthTracker :=
  ⟨query_vectors, k, space_type, query_vectors.map fun _ => []⟩

/-- Loop body of update (lines 260-282) over the query vectors and their
heaps in lockstep. Python mutates self.heaps in place and an exception
raised at query i leaves the heaps of queries before i already updated, so
the loop returns the partially updated heap list together with the error, if
any. The fallback case (heap list shorter than the query list) is
unreachable for trackers built by init, which keeps both lists equally
long. -/
def updateLoop (space_type : String) (k : ℕ) (doc_id : String) (v : List ℚ) :
    List (List ℚ) → List Heap → List Heap × Option String
  | q :: qs, h :: hs =>
    match distOf space_type q v with
    | .error e => (h :: hs, some e)
    | .ok d =>
      let r := updateLoop space_type k doc_id v qs hs
      (updateHeap k d doc_id h :: r.1, r.2)
  | _, hs => (hs, none)

/-- GroundTruthTracker.update (lines 251-282): recompute every per-query
heap; the Option component is the ValueError raised for an unsupported
space_type or a numpy shape error, with the heaps updated for the queries
already processed when it is raised. -/
def GroundTruthTracker.update (t : GroundTruthTracker) (doc_id : String)
    (v : List ℚ) : GroundTruthTracker × Option String :=
  let r := updateLoop t.space_type t.k doc_id v t.query_vectors t.heaps
  ({ t with heaps := r.1 }, r.2)

/-- Python list subscription l[i]: a negative index addresses from the end,
and an index out of range (below -len or at or above len) raises an
IndexError. -/
def pyIndex {α : Type} (l : List α) (i : ℤ) : Except String α :=
  let j : ℤ := if i < 0 then i + l.length else i
  if 0 ≤ j then
    match l.get? j.toNat with
    | some a => .ok a
    | none => .error "list index out of range"
  else .error "list index out of range"

/-- The sort of get_ground_truth (line 295): sorted(heap, key=lambda x:
-x[0]) sorts the entries by ascending -x[0], that is by ascending distance,
comparing keys only. Python's sort is stable, so the order among entries
with equal distance depends on the internal heap array layout; in the
canonical representation ties keep the canonical tuple order. No property
proved here depends on the order among equal distances. -/
def sortByDist (heap : Heap) : List (ℚ × String) :=
  heap.insertionSort keyLE

/-- GroundTruthTracker.get_ground_truth (lines 284-296): subscript
self.heaps with the given query index (Python semantics, including negative
indices and the IndexError), sort the entries by ascending distance and
return the doc ids. -/
def GroundTruthTracker.get_ground_truth (t : GroundTruthTracker)
    (query_index : ℤ) : Except String (List String) :=
  (pyIndex t.heaps query_index).map fun heap =>
    (sortByDist heap).map fun e => e.2

/-- A stream of update calls: the tracker after calling update once per
(doc_id, vector) pair, in order, as index_vectors does during ingestion.
Errors cannot occur in the runs the theorems consider; the error component
of each call is discarded. -/
def runUpdates (t : GroundTruthTracker) : List (String × List ℚ) → GroundTruthTracker
  | [] => t
  | (doc_id, v) :: rest => runUpdates (t.update doc_id v).1 rest

/-- Evolution of a single per-query heap under a stream of updates with the
l2 metric, used to reason about one query of runUpdates at a time. -/
def runHeapL2 (k : ℕ) (qv : List ℚ) : List (String × List ℚ) → Heap → Heap
  | [], h => h
  | (doc_id, v) :: rest, h => runHeapL2 k qv rest (updateHeap k (sqDist qv v) doc_id h)

/-- calculate_recall (lines 302-321): 0.0 for a falsy (empty) ground-truth
list, otherwise the size of the intersection of the two id sets divided by
len(ground_truth), the raw length of the ground-truth list (line 319 uses
len(ground_truth), not len(ground_truth_set)). Python sets of strings are
modelled as finsets. -/
def calculate_recall (approximate_results ground_truth : List String) : ℚ :=
  if ground_truth = [] then 0
  else
    (((approximate_results.toFinset ∩ ground_truth.toFinset).card : ℚ)) /
      ((ground_truth.length : ℚ))

/-- Recall-summary block of test_search_with_stats (lines 489-495). The
block is guarded by the truthiness of recall_values, so an empty sample list
produces no summary at all (modelled as none) and in particular raises no
error. For a non-empty list it reports np.mean, np.min, np.max and np.std;
np.std is the population standard deviation, the square root of the
population variance, and is represented here by that variance, its
order-isomorphic square. -/
def recallSummary : List ℚ → Option (ℚ × ℚ × ℚ × ℚ)
  | [] => none
  | x :: xs =>
    let l := x :: xs
    let n : ℚ := l.length
    let mean := l.sum / n
    some (mean, xs.foldl min x, xs.foldl max x,
      (l.map fun r => (r - mean) ^ 2).sum / n)

/-- Ascending insertion sort of a list of distances. -/
def sortLe (l : List ℚ) : List ℚ := l.insertionSort (· ≤ ·)

/-- The multiset of the min(N, k) smallest distances of a list of N
distances, as an ascending list: the first k entries of the ascending sort. -/
def bestK (k : ℕ) (l : List ℚ) : List ℚ := (sortLe l).take k

/-- No tie in distance exactly at the k-th boundary: either at most k
distances were seen, or the k-th smallest is strictly below the (k+1)-th
smallest. -/
def noBoundaryTie (k : ℕ) (l : List ℚ) : Prop :=
  k < l.length → (sortLe l).getD (k - 1) 0 < (sortLe l).getD k 0

/-- Distances of a heap in canonical order: entry distances are the negated
first components, descending in the canonical form, so the reversed list is
ascending. -/
def heapDists (heap : Heap) : List ℚ :=
  (heap.map fun e => -e.1).reverse

/-- The heap entry an update with the l2 metric produces for a stream pair
(doc_id, vector) against the query vector qv: the tuple (-dist, doc_id) with
the distance in its squared representation. -/
def entryOf (qv : List ℚ) (p : String × List ℚ) : ℚ × String :=
  (-(sqDist qv p.2), p.1)

/-- Invariant tying a per-query heap to the stream prefix processed so far
under the l2 metric: the heap is canonically sorted, its ascending distance
list consists of the min(k, N) smallest distances seen so far, every entry
stems from a processed stream pair, and no doc id is retained twice. -/
structure HeapInv (k : ℕ) (qv : List ℚ) (seen : List (String × List ℚ))
    (h : Heap) : Prop where
  sorted : h.Sorted entryLE
  dists : heapDists h = bestK k (seen.map fun p => sqDist qv p.2)
  mem : ∀ e ∈ h, ∃ p ∈ seen, e = entryOf qv p
  nodup : (h.map fun e => e.2).Nodup

/-- Characterisation of charListLt: it decides the lexicographic order on
character lists. -/
theorem charListLt_iff_lex : ∀ s t : List Char,
    charListLt s t = true ↔ List.Lex (· < ·) s t
  | [], [] => by
    constructor
    · intro h
      simp [charListLt] at h
    · intro h
      cases h
  | [], _ :: _ => by
    simp only [charListLt]
    exact iff_of_true trivial List.Lex.nil
  | _ :: _, [] => by
    constructor
    · intro h
      simp [charListLt] at h
    · intro h
      cases h
  | a :: as, b :: bs => by
    simp only [charListLt]
    by_cases hab : a < b
    · rw [if_pos hab]
      exact iff_of_true rfl (List.Lex.rel hab)
    · rw [if_neg hab]
      by_cases hba : b < a
      · rw [if_pos hba]
        constructor
        · intro h
          exact absurd h (by simp)
        · intro h
          cases h with
          | rel h' => exact absurd h' hab
          | cons h' => exact absurd hba (lt_irrefl _)
      · rw [if_neg hba]
        have hab' : a = b := le_antisymm (le_of_not_lt hba) (le_of_not_lt hab)
        subst hab'
        rw [charListLt_iff_lex as bs]
        constructor
        · exact List.Lex.cons
        · intro h
          cases h with
          | rel h' => exact absurd h' hab
          | cons h' => exact h'

/-- The lexicographic order on character lists is trichotomous. -/
theorem lexCL_trichotomy : ∀ s t : List Char,
    List.Lex (· < ·) s t ∨ s = t ∨ List.Lex (· < ·) t s
  | [], [] => Or.inr (Or.inl rfl)
  | [], _ :: _ => Or.inl List.Lex.nil
  | _ :: _, [] => Or.inr (Or.inr List.Lex.nil)
  | a :: as, b :: bs => by
    rcases lt_trichotomy a b with h | h | h
    · exact Or.inl (List.Lex.rel h)
    · subst h
      rcases lexCL_trichotomy as bs with h' | h' | h'
      · exact Or.inl (List.Lex.cons h')
      · exact Or.inr (Or.inl (by rw [h']))
      · exact Or.inr (Or.inr (List.Lex.cons h'))
    · exact Or.inr (Or.inr (List.Lex.rel h))

/-- The lexicographic order on character lists is asymmetric. -/
theorem lexCL_asymm : ∀ s t : List Char,
    List.Lex (· < ·) s t → List.Lex (· < ·) t s → False
  | _, _, List.Lex.nil, h2 => by cases h2
  | _, _, List.Lex.rel h1, List.Lex.rel h2 => absurd h1 (lt_asymm h2)
  | _, _, List.Lex.rel h1, List.Lex.cons _ => absurd h1 (lt_irrefl _)
  | _, _, List.Lex.cons _, List.Lex.rel h2 => absurd h2 (lt_irrefl _)
  | _, _, List.Lex.cons h1, List.Lex.cons h2 => lexCL_asymm _ _ h1 h2

/-- The lexicographic order on character lists is transitive. -/
theorem lexCL_trans : ∀ s t u : List Char,
    List.Lex (· < ·) s t → List.Lex (· < ·) t u → List.Lex (· < ·) s u
  | _, _, _, List.Lex.nil, List.Lex.rel _ => List.Lex.nil
  | _, _, _, List.Lex.nil, List.Lex.cons _ => List.Lex.nil
  | _, _, _, List.Lex.rel h1, List.Lex.rel h2 => List.Lex.rel (lt_trans h1 h2)
  | _, _, _, List.Lex.rel h1, List.Lex.cons _ => List.Lex.rel h1
  | _, _, _, List.Lex.cons _, List.Lex.rel h2 => List.Lex.rel h2
  | _, _, _, List.Lex.cons h1, List.Lex.cons h2 =>
    List.Lex.cons (lexCL_trans _ _ _ h1 h2)

/-- Two strings with equal character lists are equal. -/
theorem stringDataInj : ∀ {s t : String}, s.data = t.data → s = t := by
  intro s t h
  cases s
  cases t
  exact congrArg String.mk (by simpa using h)

/-- Unfolding of the entry order: strictly smaller first component, or equal
first components and the second string not lexicographically greater. -/
theorem entryLE_iff (x y : ℚ × String) :
    entryLE x y ↔
      x.1 < y.1 ∨ (x.1 = y.1 ∧ ¬List.Lex (· < ·) y.2.data x.2.data) := by
  unfold entryLE entryLeB pyStrLt
  rcases lt_trichotomy x.1 y.1 with h | h | h
  · rw [if_pos h]
    simp [h]
  · rw [if_neg (h ▸ lt_irrefl x.1), if_neg (h ▸ lt_irrefl x.1)]
    constructor
    · intro hb
      refine Or.inr ⟨h, fun hc => ?_⟩
      rw [← charListLt_iff_lex] at hc
      rw [hc] at hb
      exact absurd hb (by simp)
    · rintro (hlt | ⟨-, hnl⟩)
      · exact absurd hlt (h ▸ lt_irrefl _)
      · rw [← charListLt_iff_lex, Bool.not_eq_true] at hnl
        rw [hnl]
        rfl
  · rw [if_neg (lt_asymm h), if_pos h]
    refine iff_of_false (by simp) ?_
    rintro (hlt | ⟨heq, -⟩)
    · exact lt_asymm h hlt
    · rw [heq] at h
      exact lt_irrefl _ h

/-- The entry order is total. -/
theorem entryLE_total (x y : ℚ × String) : entryLE x y ∨ entryLE y x := by
  rw [entryLE_iff, entryLE_iff]
  rcases lt_trichotomy x.1 y.1 with h | h | h
  · exact Or.inl (Or.inl h)
  · rcases lexCL_trichotomy x.2.data y.2.data with h' | h' | h'
    · exact Or.inl (Or.inr ⟨h, fun hc => lexCL_asymm _ _ h' hc⟩)
    · refine Or.inl (Or.inr ⟨h, fun hc => ?_⟩)
      rw [← h'] at hc
      exact lexCL_asymm _ _ hc hc
    · exact Or.inr (Or.inr ⟨h.symm, fun hc => lexCL_asymm _ _ h' hc⟩)
  · exact Or.inr (Or.inl h)

/-- The entry order is transitive. -/
theorem entryLE_trans (x y z : ℚ × String) :
    entryLE x y → entryLE y z → entryLE x z := by
  rw [entryLE_iff, entryLE_iff, entryLE_iff]
  rintro (h1 | ⟨h1, hs1⟩) (h2 | ⟨h2, hs2⟩)
  · exact Or.inl (lt_trans h1 h2)
  · exact Or.inl (h2 ▸ h1)
  · exact Or.inl (h1 ▸ h2)
  · refine Or.inr ⟨h1.trans h2, fun hc => ?_⟩
    rcases lexCL_trichotomy y.2.data z.2.data with h' | h' | h'
    · rcases lexCL_trichotomy x.2.data y.2.data with h'' | h'' | h''
      · exact lexCL_asymm _ _ (lexCL_trans _ _ _ h'' h') hc
      · exact lexCL_asymm _ _ (h'' ▸ h') hc
      · exact hs1 h''
    · exact hs1 (h' ▸ hc)
    · exact hs2 h'

/-- The entry order is antisymmetric: two tuples below each other are equal. -/
theorem entryLE_antisymm (x y : ℚ × String) :
    entryLE x y → entryLE y x → x = y := by
  rw [entryLE_iff, entryLE_iff]
  rintro (h1 | ⟨h1, hs1⟩) (h2 | ⟨h2, hs2⟩)
  · exact absurd h2 (lt_asymm h1)
  · exact absurd h1 (h2 ▸ lt_irrefl _)
  · exact absurd h2 (h1 ▸ lt_irrefl _)
  · have hdata : x.2.data = y.2.data := by
      rcases lexCL_trichotomy x.2.data y.2.data with h' | h' | h'
      · exact absurd h' hs2
      · exact h'
      · exact absurd h' hs1
    exact Prod.ext h1 (stringDataInj hdata)

/-- Ordered insertion preserves sortedness, for any total transitive
relation on heap entries. -/
theorem sorted_orderedInsert_of (r : (ℚ × String) → (ℚ × String) → Prop)
    [DecidableRel r] (htot : ∀ x y, r x y ∨ r y x)
    (htr : ∀ x y z, r x y → r y z → r x z) (e : ℚ × String) :
    ∀ l : List (ℚ × String), l.Sorted r → (l.orderedInsert r e).Sorted r
  | [], _ => by simp [List.orderedInsert]
  | x :: t, hs => by
    rw [List.sorted_cons] at hs
    by_cases hex : r e x
    · rw [List.orderedInsert_of_le _ _ hex, List.sorted_cons]
      refine ⟨?_, List.sorted_cons.2 hs⟩
      intro b hb
      rcases List.mem_cons.1 hb with rfl | hbt
      · exact hex
      · exact htr _ _ _ hex (hs.1 b hbt)
    · have hrw : (x :: t).orderedInsert r e = x :: t.orderedInsert r e := by
        simp [List.orderedInsert, hex]
      rw [hrw, List.sorted_cons]
      constructor
      · intro b hb
        rcases (List.mem_orderedInsert r).1 hb with hbe | hbt
        · rcases htot e x with h' | h'
          · exact absurd h' hex
          · rw [hbe]
            exact h'
        · exact hs.1 b hbt
      · exact sorted_orderedInsert_of r htot htr e t hs.2

/-- heappush preserves the canonical sortedness of a heap. -/
theorem sorted_heappush (h : Heap) (hs : h.Sorted entryLE) (e : ℚ × String) :
    (heappush h e).Sorted entryLE :=
  sorted_orderedInsert_of entryLE entryLE_total entryLE_trans e h hs

/-- heappush permutes to consing the new entry. -/
theorem perm_heappush (h : Heap) (e : ℚ × String) :
    List.Perm (heappush h e) (e :: h) :=
  List.perm_orderedInsert _ _ _

/-- The sort key order of get_ground_truth is total. -/
theorem keyLE_total (x y : ℚ × String) : keyLE x y ∨ keyLE y x :=
  le_total _ _

/-- The sort key order of get_ground_truth is transitive. -/
theorem keyLE_trans (x y z : ℚ × String) : keyLE x y → keyLE y z → keyLE x z :=
  le_trans

/-- The output sort of get_ground_truth is sorted by its key. -/
theorem sorted_sortByDist : ∀ h : Heap, (sortByDist h).Sorted keyLE
  | [] => by simp [sortByDist, List.insertionSort]
  | x :: t => by
    have ih := sorted_sortByDist t
    simpa [sortByDist, List.insertionSort] using
      sorted_orderedInsert_of keyLE keyLE_total keyLE_trans x _ ih

/-- The output sort of get_ground_truth permutes the heap. -/
theorem perm_sortByDist (h : Heap) : List.Perm (sortByDist h) h :=
  List.perm_insertionSort _ _

/-- The entry order implies comparison of the first components. -/
theorem entryLE_fst_le {x y : ℚ × String} (h : entryLE x y) : x.1 ≤ y.1 := by
  rcases (entryLE_iff x y).1 h with h' | ⟨h', -⟩
  · exact le_of_lt h'
  · exact le_of_eq h'

/-- The distance list of a canonically sorted heap is ascending. -/
theorem heapDists_sorted (h : Heap) (hs : h.Sorted entryLE) :
    (heapDists h).Sorted (· ≤ ·) := by
  unfold heapDists
  rw [List.Sorted, List.pairwise_reverse, List.pairwise_map]
  exact hs.imp fun hab => neg_le_neg (entryLE_fst_le hab)

/-- The distance list has the length of the heap. -/
theorem heapDists_length (h : Heap) : (heapDists h).length = h.length := by
  simp [heapDists]

/-- Distance list of a push: ordered insertion of the new distance. -/
theorem heapDists_heappush (h : Heap) (hs : h.Sorted entryLE) (e : ℚ × String) :
    heapDists (heappush h e) = (heapDists h).orderedInsert (· ≤ ·) (-e.1) := by
  have hperm : List.Perm (heapDists (heappush h e)) ((-e.1) :: heapDists h) := by
    unfold heapDists heappush
    refine (List.reverse_perm _).trans ?_
    refine ((List.perm_orderedInsert _ _ _).map _).trans ?_
    rw [List.map_cons]
    exact List.Perm.cons _ (List.reverse_perm _).symm
  exact List.eq_of_perm_of_sorted
    (hperm.trans (List.perm_orderedInsert _ _ _).symm)
    (heapDists_sorted _ (sorted_heappush h hs e))
    (List.Sorted.orderedInsert _ _ (heapDists_sorted h hs))

/-- Distance list of the tail: drop the largest distance. -/
theorem heapDists_tail (h : Heap) : heapDists h.tail = (heapDists h).dropLast := by
  cases h with
  | nil => simp [heapDists]
  | cons x t => simp [heapDists, List.reverse_cons, List.dropLast_concat]

/-- The last entry of the distance list is the distance of the heap root,
the current worst retained distance -heap[0][0]. -/
theorem heapDists_getLast? (h : Heap) (hne : h ≠ []) :
    (heapDists h).getLast? = some (-(h.headI).1) := by
  cases h with
  | nil => exact absurd rfl hne
  | cons x t => simp [heapDists, List.reverse_cons, List.headI]

/-- Truncating after an ordered insertion only depends on the truncated
list: inserting into the first k elements and re-truncating gives the same
first k elements. -/
theorem orderedInsert_take (d : ℚ) :
    ∀ (S : List ℚ) (k : ℕ),
      (S.orderedInsert (· ≤ ·) d).take k = ((S.take k).orderedInsert (· ≤ ·) d).take k
  | [], k => by simp
  | x :: S', 0 => by simp
  | x :: S', k + 1 => by
    by_cases hdx : d ≤ x
    · rw [List.take_succ_cons, List.orderedInsert_of_le _ _ hdx,
        List.orderedInsert_of_le _ _ hdx, List.take_succ_cons, List.take_succ_cons]
      congr 1
      cases k with
      | zero => simp
      | succ j =>
        rw [List.take_succ_cons, List.take_succ_cons, List.take_take,
          min_eq_left (Nat.le_succ j)]
    · have hrw : ∀ t : List ℚ, (x :: t).orderedInsert (· ≤ ·) d =
          x :: t.orderedInsert (· ≤ ·) d := by
        intro t
        simp [List.orderedInsert, hdx]
      rw [List.take_succ_cons, hrw, hrw, List.take_succ_cons, List.take_succ_cons]
      rw [orderedInsert_take d S' k]

/-- In a sorted list every element is at most the last one. -/
theorem sorted_le_getLast (w : ℚ) :
    ∀ B : List ℚ, B.Sorted (· ≤ ·) → B.getLast? = some w → ∀ b ∈ B, b ≤ w
  | [], _, hlast => by simp at hlast
  | [x], _, hlast => by
    intro b hb
    have hxw : x = w := by simpa using hlast
    rcases List.mem_singleton.1 hb with rfl
    exact le_of_eq hxw
  | x :: y :: B', hs, hlast => by
    rw [List.getLast?_cons_cons] at hlast
    rw [List.sorted_cons] at hs
    intro b hb
    rcases List.mem_cons.1 hb with rfl | hbt
    · exact hs.1 w (List.mem_of_mem_getLast? hlast)
    · exact sorted_le_getLast w (y :: B') hs.2 hlast b hbt

/-- Inserting a distance strictly below the last element of a list and
truncating to the original length is ordered insertion into the list
without its last element: the eviction step of the bounded heap. -/
theorem orderedInsert_take_evict (d w : ℚ) :
    ∀ B : List ℚ, B.getLast? = some w → d < w →
      (B.orderedInsert (· ≤ ·) d).take B.length = B.dropLast.orderedInsert (· ≤ ·) d
  | [], hlast, _ => by simp at hlast
  | [x], hlast, hd => by
    have hxw : x = w := by simpa using hlast
    subst hxw
    rw [List.orderedInsert_of_le _ _ (le_of_lt hd)]
    simp [List.orderedInsert]
  | x :: y :: B', hlast, hd => by
    rw [List.getLast?_cons_cons] at hlast
    have hdl : (x :: y :: B').dropLast = x :: (y :: B').dropLast := rfl
    by_cases hdx : d ≤ x
    · rw [List.orderedInsert_of_le _ _ hdx, hdl,
        List.orderedInsert_of_le _ _ hdx]
      show (d :: x :: y :: B').take (B'.length + 2) = d :: x :: (y :: B').dropLast
      rw [List.take_succ_cons, List.take_succ_cons]
      congr 2
      rw [List.dropLast_eq_take]
      simp
    · have hrw : ∀ t : List ℚ, (x :: t).orderedInsert (· ≤ ·) d =
          x :: t.orderedInsert (· ≤ ·) d := by
        intro t
        simp [List.orderedInsert, hdx]
      rw [hrw, hdl, hrw]
      show (x :: (y :: B').orderedInsert (· ≤ ·) d).take (B'.length + 2) =
        x :: ((y :: B').dropLast.orderedInsert (· ≤ ·) d)
      rw [List.take_succ_cons]
      congr 1
      exact orderedInsert_take_evict d w (y :: B') hlast hd

/-- Ordered insertion of the repeated value into a constant list, truncated
to the original length, is the identity. -/
theorem orderedInsert_replicate_take (x : ℚ) (n : ℕ) :
    ((List.replicate n x).orderedInsert (· ≤ ·) x).take n = List.replicate n x := by
  cases n with
  | zero => simp
  | succ m =>
    rw [List.replicate_succ, List.orderedInsert_of_le _ _ (le_refl x),
      List.take_succ_cons, ← List.replicate_succ, List.take_replicate,
      min_eq_left (Nat.le_succ m), List.replicate_succ]

/-- Inserting a distance at least the last element of a sorted list and
truncating to the original length gives the list back: the discard step of
the bounded heap. -/
theorem orderedInsert_take_full (d w : ℚ) :
    ∀ B : List ℚ, B.Sorted (· ≤ ·) → B.getLast? = some w → w ≤ d →
      (B.orderedInsert (· ≤ ·) d).take B.length = B
  | [], _, hlast, _ => by simp at hlast
  | [x], _, hlast, hwd => by
    have hxw : x = w := by simpa using hlast
    subst hxw
    by_cases hdx : d ≤ x
    · have hdw : d = x := le_antisymm hdx hwd
      subst hdw
      rw [List.orderedInsert_of_le _ _ hdx]
      simp
    · simp [List.orderedInsert, hdx]
  | x :: y :: B', hs, hlast, hwd => by
    rw [List.getLast?_cons_cons] at hlast
    rw [List.sorted_cons] at hs
    by_cases hdx : d ≤ x
    · have hxw : x ≤ w := hs.1 w (List.mem_of_mem_getLast? hlast)
      have hxd : x = d := le_antisymm (le_trans hxw hwd) hdx
      have hall : ∀ b ∈ x :: y :: B', b = x := by
        intro b hb
        rcases List.mem_cons.1 hb with rfl | hbt
        · rfl
        · exact le_antisymm
            (le_trans (sorted_le_getLast w (y :: B') hs.2 hlast b hbt)
              (le_trans hwd hdx))
            (hs.1 b hbt)
      have hrep : x :: y :: B' = List.replicate (B'.length + 2) x :=
        List.eq_replicate_of_mem hall
      rw [hrep, List.length_replicate, ← hxd]
      exact orderedInsert_replicate_take x (B'.length + 2)
    · have hrw : (x :: y :: B').orderedInsert (· ≤ ·) d =
          x :: (y :: B').orderedInsert (· ≤ ·) d := by
        simp [List.orderedInsert, hdx]
      rw [hrw]
      show (x :: (y :: B').orderedInsert (· ≤ ·) d).take (B'.length + 2) =
        x :: y :: B'
      rw [List.take_succ_cons]
      congr 1
      exact orderedInsert_take_full d w (y :: B') hs.2 hlast hwd

/-- The selection of the k smallest distances is sorted ascending. -/
theorem bestK_sorted (k : ℕ) (l : List ℚ) : (bestK k l).Sorted (· ≤ ·) :=
  (List.sorted_insertionSort _ l).sublist (List.take_sublist k _)

/-- The selection of the k smallest distances has length min k N. -/
theorem bestK_length (k : ℕ) (l : List ℚ) : (bestK k l).length = min k l.length := by
  simp [bestK, sortLe, List.length_insertionSort]

/-- The selection of the k smallest distances only depends on the multiset
of distances. -/
theorem bestK_perm (k : ℕ) {l₁ l₂ : List ℚ} (hp : List.Perm l₁ l₂) :
    bestK k l₁ = bestK k l₂ := by
  unfold bestK sortLe
  congr 1
  exact List.eq_of_perm_of_sorted
    ((List.perm_insertionSort _ _).trans (hp.trans (List.perm_insertionSort _ _).symm))
    (List.sorted_insertionSort _ _) (List.sorted_insertionSort _ _)

/-- One-step recurrence for the selection of the k smallest distances:
insert the new distance into the current selection and re-truncate. -/
theorem bestK_cons (k : ℕ) (d : ℚ) (ds : List ℚ) :
    bestK k (d :: ds) = ((bestK k ds).orderedInsert (· ≤ ·) d).take k := by
  unfold bestK sortLe
  have hrw : (d :: ds).insertionSort (· ≤ ·) =
      (ds.insertionSort (· ≤ ·)).orderedInsert (· ≤ ·) d := rfl
  rw [hrw, orderedInsert_take d (ds.insertionSort (· ≤ ·)) k]

/-- The empty heap satisfies the invariant for the empty prefix. -/
theorem heapInv_nil (k : ℕ) (qv : List ℚ) : HeapInv k qv [] [] := by
  refine ⟨List.sorted_nil, ?_, ?_, List.nodup_nil⟩
  · simp [heapDists, bestK, sortLe, List.insertionSort]
  · intro e he
    simp at he

/-- One update step preserves the heap invariant, provided k is at least 1
and the new doc id is fresh. -/
theorem heapInv_step (k : ℕ) (hk : 1 ≤ k) (qv : List ℚ)
    (seen : List (String × List ℚ)) (h : Heap) (inv : HeapInv k qv seen h)
    (doc_id : String) (v : List ℚ) (hid : ∀ p ∈ seen, p.1 ≠ doc_id) :
    HeapInv k qv (seen ++ [(doc_id, v)])
      (updateHeap k (sqDist qv v) doc_id h) := by
  have hlen : h.length = min k (seen.length) := by
    have h1 := heapDists_length h
    rw [inv.dists, bestK_length] at h1
    simpa using h1.symm
  have hdists_new : bestK k ((seen ++ [(doc_id, v)]).map fun p => sqDist qv p.2) =
      ((bestK k (seen.map fun p => sqDist qv p.2)).orderedInsert (· ≤ ·)
        (sqDist qv v)).take k := by
    rw [List.map_append]
    rw [bestK_perm k (List.perm_append_comm)]
    simp only [List.map_cons, List.map_nil, List.singleton_append]
    exact bestK_cons k _ _
  have hid_not_mem : doc_id ∉ h.map fun e => e.2 := by
    intro hmem
    rcases List.mem_map.1 hmem with ⟨e, heh, hei⟩
    rcases inv.mem e heh with ⟨p, hp, hep⟩
    exact hid p hp (by rw [← hei, hep, entryOf])
  unfold updateHeap
  by_cases hfull : h.length < k
  · rw [if_pos hfull]
    refine ⟨sorted_heappush h inv.sorted _, ?_, ?_, ?_⟩
    · rw [heapDists_heappush h inv.sorted _, hdists_new, inv.dists]
      have : -(-(sqDist qv v)) = sqDist qv v := neg_neg _
      rw [this]
      refine (List.take_of_length_le ?_).symm
      rw [List.orderedInsert_length, ← inv.dists, heapDists_length]
      omega
    · intro e he
      rcases (List.mem_orderedInsert entryLE).1 he with hee | het
      · exact ⟨(doc_id, v), List.mem_append_right _ (List.mem_singleton_self _),
          by rw [hee, entryOf]⟩
      · rcases inv.mem e het with ⟨p, hp, hep⟩
        exact ⟨p, List.mem_append_left _ hp, hep⟩
    · rw [((perm_heappush h _).map fun e => e.2).nodup_iff]
      rw [List.map_cons, List.nodup_cons]
      exact ⟨hid_not_mem, inv.nodup⟩
  · have hlenk : h.length = k := by omega
    have hne : h ≠ [] := by
      intro hnil
      rw [hnil] at hlenk
      simp at hlenk
      omega
    have hlast := heapDists_getLast? h hne
    by_cases hlt : sqDist qv v < -(h.headI).1
    · rw [if_neg hfull, if_pos hlt]
      unfold heapreplace
      have hsorted_tail : h.tail.Sorted entryLE := by
        cases h with
        | nil => exact absurd rfl hne
        | cons x t => exact inv.sorted.of_cons
      refine ⟨sorted_heappush _ hsorted_tail _, ?_, ?_, ?_⟩
      · rw [heapDists_heappush _ hsorted_tail _, heapDists_tail, hdists_new,
          ← inv.dists]
        have hnn : -((-(sqDist qv v), doc_id) : ℚ × String).1 = sqDist qv v := by
          simp
        rw [hnn]
        have hBlen : (heapDists h).length = k := by
          rw [heapDists_length, hlenk]
        rw [← hBlen]
        exact (orderedInsert_take_evict _ _ (heapDists h) hlast hlt).symm
      · intro e he
        rcases (List.mem_orderedInsert entryLE).1 he with hee | het
        · exact ⟨(doc_id, v), List.mem_append_right _ (List.mem_singleton_self _),
            by rw [hee, entryOf]⟩
        · rcases inv.mem e (List.mem_of_mem_tail het) with ⟨p, hp, hep⟩
          exact ⟨p, List.mem_append_left _ hp, hep⟩
      · rw [((perm_heappush h.tail _).map fun e => e.2).nodup_iff]
        rw [List.map_cons, List.nodup_cons]
        constructor
        · intro hmem
          exact hid_not_mem ((h.tail_sublist.map fun e => e.2).mem hmem)
        · exact inv.nodup.sublist (h.tail_sublist.map fun e => e.2)
    · rw [if_neg hfull, if_neg hlt]
      refine ⟨inv.sorted, ?_, ?_, inv.nodup⟩
      · rw [hdists_new, inv.dists]
        have hBlen : (heapDists h).length = k := by
          rw [heapDists_length, hlenk]
        rw [← inv.dists, ← hBlen]
        exact (orderedInsert_take_full _ _ (heapDists h)
          (heapDists_sorted h inv.sorted) hlast (le_of_not_lt hlt)).symm
      · intro e he
        rcases inv.mem e he with ⟨p, hp, hep⟩
        exact ⟨p, List.mem_append_left _ hp, hep⟩

/-- Running a stream of updates from an invariant state preserves the
invariant, accumulating the stream into the processed prefix. -/
theorem heapInv_run (k : ℕ) (hk : 1 ≤ k) (qv : List ℚ) :
    ∀ (rest seen : List (String × List ℚ)) (h : Heap),
      HeapInv k qv seen h →
      ((seen.map Prod.fst) ++ (rest.map Prod.fst)).Nodup →
      HeapInv k qv (seen ++ rest) (runHeapL2 k qv rest h)
  | [], seen, h, inv, _ => by simpa using inv
  | (doc_id, v) :: rest', seen, h, inv, hnd => by
    have hid : ∀ p ∈ seen, p.1 ≠ doc_id := by
      intro p hp heq
      have hmem1 : doc_id ∈ seen.map Prod.fst :=
        List.mem_map.2 ⟨p, hp, heq⟩
      have hmem2 : doc_id ∈ ((doc_id, v) :: rest').map Prod.fst := by
        simp
      exact (List.disjoint_of_nodup_append hnd) hmem1 hmem2
    have step := heapInv_step k hk qv seen h inv doc_id v hid
    have hnd' : (((seen ++ [(doc_id, v)]).map Prod.fst) ++
        (rest'.map Prod.fst)).Nodup := by
      rw [List.map_append]
      rw [List.append_assoc]
      simpa using hnd
    have ih := heapInv_run k hk qv rest' (seen ++ [(doc_id, v)])
      (updateHeap k (sqDist qv v) doc_id h) step hnd'
    rw [List.append_assoc] at ih
    simpa [runHeapL2] using ih

/-- The l2 branch succeeds and returns the squared distance when the
dimensions agree. -/
theorem distOf_l2_ok (q v : List ℚ) (hq : q.length = v.length) :
    distOf "l2" q v = Except.ok (sqDist q v) := by
  unfold distOf l2DistSq npSub
  rw [if_pos rfl, if_pos hq]
  rfl

/-- With the l2 metric and matching dimensions, the update loop maps every
per-query heap through its bounded insertion step and raises nothing. -/
theorem updateLoop_l2 (k : ℕ) (doc_id : String) (v : List ℚ) :
    ∀ (qs : List (List ℚ)) (hs : List Heap), hs.length = qs.length →
      (∀ q ∈ qs, q.length = v.length) →
      updateLoop "l2" k doc_id v qs hs =
        (List.zipWith (fun q h => updateHeap k (sqDist q v) doc_id h) qs hs, none)
  | [], hs, hlen, _ => by
    have : hs = [] := List.length_eq_zero.1 (by simpa using hlen)
    subst this
    rfl
  | q :: qs', h :: hs', hlen, hdim => by
    rw [updateLoop, distOf_l2_ok q v (hdim q (List.mem_cons_self q qs'))]
    rw [updateLoop_l2 k doc_id v qs' hs' (by simpa using hlen)
      (fun q' hq' => hdim q' (List.mem_cons_of_mem q hq'))]
    rfl
  | q :: qs', [], hlen, _ => by simp at hlen

/-- Tracker-level form of updateLoop_l2. -/
theorem update_l2 (k : ℕ) (qs : List (List ℚ)) (hs : List Heap)
    (doc_id : String) (v : List ℚ) (hlen : hs.length = qs.length)
    (hdim : ∀ q ∈ qs, q.length = v.length) :
    GroundTruthTracker.update ⟨qs, k, "l2", hs⟩ doc_id v =
      (⟨qs, k, "l2",
        List.zipWith (fun q h => updateHeap k (sqDist q v) doc_id h) qs hs⟩, none) := by
  unfold GroundTruthTracker.update
  rw [updateLoop_l2 k doc_id v qs hs hlen hdim]

/-- Zipping a list with itself through the second projection is the
identity when the lengths agree. -/
theorem zipWith_snd_id :
    ∀ (qs : List (List ℚ)) (hs : List Heap), hs.length = qs.length →
      List.zipWith (fun _ h => h) qs hs = hs
  | [], hs, hlen => by
    have : hs = [] := List.length_eq_zero.1 (by simpa using hlen)
    subst this
    rfl
  | q :: qs', h :: hs', hlen => by
    rw [List.zipWith_cons_cons, zipWith_snd_id qs' hs' (by simpa using hlen)]
  | q :: qs', [], hlen => by simp at hlen

/-- Fusion of two zips over the same first list. -/
theorem zipWith_zipWith (f g : List ℚ → Heap → Heap) :
    ∀ (qs : List (List ℚ)) (hs : List Heap),
      List.zipWith f qs (List.zipWith g qs hs) =
        List.zipWith (fun q h => f q (g q h)) qs hs
  | [], _ => rfl
  | _ :: _, [] => rfl
  | q :: qs', h :: hs' => by
    rw [List.zipWith_cons_cons, List.zipWith_cons_cons, List.zipWith_cons_cons,
      zipWith_zipWith f g qs' hs']

/-- Closed form of a stream of l2 updates: every per-query heap evolves
independently through runHeapL2. -/
theorem runUpdates_l2_heaps (k : ℕ) (qs : List (List ℚ)) :
    ∀ (stream : List (String × List ℚ)) (hs : List Heap),
      hs.length = qs.length →
      (∀ q ∈ qs, ∀ p ∈ stream, q.length = p.2.length) →
      (runUpdates ⟨qs, k, "l2", hs⟩ stream).heaps =
        List.zipWith (fun q h => runHeapL2 k q stream h) qs hs
  | [], hs, hlen, _ => by
    rw [runUpdates]
    show hs = _
    have hfun : List.zipWith (fun q h => runHeapL2 k q [] h) qs hs =
        List.zipWith (fun _ h => h) qs hs := by
      congr 1
    rw [hfun, zipWith_snd_id qs hs hlen]
  | (doc_id, v) :: rest, hs, hlen, hdim => by
    rw [runUpdates, update_l2 k qs hs doc_id v hlen
      (fun q hq => hdim q hq (doc_id, v) (List.mem_cons_self _ _))]
    rw [runUpdates_l2_heaps k qs rest _
      (by rw [List.length_zipWith]; omega)
      (fun q hq p hp => hdim q hq p (List.mem_cons_of_mem _ hp))]
    rw [zipWith_zipWith]
    congr 1

/-- Python subscription at a valid nonnegative index returns the element. -/
theorem pyIndex_natCast {α : Type} (l : List α) (i : ℕ) (hi : i < l.length) :
    pyIndex l (i : ℤ) = Except.ok (l.get ⟨i, hi⟩) := by
  unfold pyIndex
  have h0 : ¬((i : ℤ) < 0) := by omega
  rw [if_neg h0, if_pos (by omega : (0 : ℤ) ≤ (i : ℤ))]
  rw [Int.toNat_natCast, List.get?_eq_get hi]

/-- Python subscription at an in-range negative index wraps around to the
end of the list. -/
theorem pyIndex_neg {α : Type} (l : List α) (i : ℤ)
    (h1 : -(l.length : ℤ) ≤ i) (h2 : i < 0) :
    pyIndex l i = pyIndex l (i + l.length) := by
  unfold pyIndex
  rw [if_pos h2, if_neg (by omega : ¬(i + (l.length : ℤ) < 0))]

/-- Python subscription outside the valid range raises an IndexError. -/
theorem pyIndex_out {α : Type} (l : List α) (i : ℤ)
    (h : i < -(l.length : ℤ) ∨ (l.length : ℤ) ≤ i) :
    pyIndex l i = Except.error "list index out of range" := by
  unfold pyIndex
  by_cases h2 : i < 0
  · rw [if_pos h2]
    have hneg : ¬(0 : ℤ) ≤ i + l.length := by omega
    rw [if_neg hneg]
  · rw [if_neg h2]
    have hge : (l.length : ℤ) ≤ i := by omega
    rw [if_pos (by omega : (0 : ℤ) ≤ i)]
    have hnone : l.get? i.toNat = none := by
      rw [List.get?_eq_none]
      omega
    rw [hnone]

/-- The distances of the sorted output of get_ground_truth are the heap
distances in ascending order. -/
theorem sortByDist_dists (h : Heap) (hs : h.Sorted entryLE) :
    (sortByDist h).map (fun e => -e.1) = heapDists h := by
  refine List.eq_of_perm_of_sorted ?_ ?_ (heapDists_sorted h hs)
  · exact ((perm_sortByDist h).map _).trans (List.reverse_perm _).symm
  · rw [List.Sorted, List.pairwise_map]
    exact (sorted_sortByDist h).imp fun hab => hab

/-- Characterisation of get_ground_truth after a stream of l2 updates with
pairwise distinct ids and matching dimensions: the call succeeds and the
returned ids are the second components of an entry list whose distance list
is exactly the selection of the min(k, N) smallest distances, whose entries
all stem from the stream, and whose ids are pairwise distinct. -/
theorem run_l2_ground_truth (qs : List (List ℚ)) (k : ℕ) (hk : 1 ≤ k)
    (stream : List (String × List ℚ)) (i : ℕ) (hi : i < qs.length)
    (hnd : (stream.map Prod.fst).Nodup)
    (hdim : ∀ q ∈ qs, ∀ p ∈ stream, q.length = p.2.length) :
    ∃ entries : List (ℚ × String),
      (runUpdates (GroundTruthTracker.init qs k "l2") stream).get_ground_truth
          (i : ℤ) = Except.ok (entries.map fun e => e.2) ∧
      entries.map (fun e => -e.1) =
        bestK k (stream.map fun p => sqDist (qs.getD i []) p.2) ∧
      (∀ e ∈ entries, ∃ p ∈ stream, e = entryOf (qs.getD i []) p) ∧
      (entries.map fun e => e.2).Nodup ∧
      entries.toFinset = (runHeapL2 k (qs.getD i []) stream []).toFinset := by
  have hqv : qs.getD i [] = qs.get ⟨i, hi⟩ := List.getD_eq_getElem qs [] hi
  have hfin : (runUpdates (GroundTruthTracker.init qs k "l2") stream).heaps =
      List.zipWith (fun q h => runHeapL2 k q stream h) qs (qs.map fun _ => []) := by
    exact runUpdates_l2_heaps k qs stream (qs.map fun _ => []) (by simp) hdim
  have hlenf :
      (runUpdates (GroundTruthTracker.init qs k "l2") stream).heaps.length =
        qs.length := by
    rw [hfin, List.length_zipWith]
    simp
  have hif : i < (runUpdates (GroundTruthTracker.init qs k "l2") stream).heaps.length := by
    rw [hlenf]
    exact hi
  have hgeti :
      (runUpdates (GroundTruthTracker.init qs k "l2") stream).heaps.get ⟨i, hif⟩ =
        runHeapL2 k (qs.getD i []) stream [] := by
    rw [hqv]
    simp only [hfin, List.get_eq_getElem, List.getElem_zipWith, List.getElem_map]
  have hinv : HeapInv k (qs.getD i []) stream (runHeapL2 k (qs.getD i []) stream []) := by
    have h0 := heapInv_run k hk (qs.getD i []) stream [] []
      (heapInv_nil k (qs.getD i [])) (by simpa using hnd)
    simpa using h0
  refine ⟨sortByDist (runHeapL2 k (qs.getD i []) stream []), ?_, ?_, ?_, ?_, ?_⟩
  · show (pyIndex _ _).map _ = _
    rw [pyIndex_natCast _ i hif, hgeti]
    rfl
  · rw [sortByDist_dists _ hinv.sorted, hinv.dists]
  · intro e he
    exact hinv.mem e ((perm_sortByDist _).mem_iff.1 he)
  · rw [((perm_sortByDist _).map fun e => e.2).nodup_iff]
    exact hinv.nodup
  · exact List.toFinset_eq_of_perm _ _ (perm_sortByDist _)

/-- Without a tie exactly at the k-th boundary, exactly min(k, N) of the N
distances lie at or below the k-th smallest distance. -/
theorem countP_le_threshold (k : ℕ) (hk : 1 ≤ k) (D : List ℚ)
    (hnotie : noBoundaryTie k D) :
    D.countP (fun d => decide (d ≤ (bestK k D).getLastD 0)) = min k D.length := by
  have hperm : List.Perm D (sortLe D) := (List.perm_insertionSort _ _).symm
  rw [hperm.countP_eq]
  have hSsorted : (sortLe D).Sorted (· ≤ ·) := List.sorted_insertionSort _ _
  have hSlen : (sortLe D).length = D.length := List.length_insertionSort _ _
  by_cases hN : D.length ≤ k
  · by_cases hD0 : D.length = 0
    · have hD : D = [] := List.length_eq_zero.1 hD0
      subst hD
      simp [bestK, sortLe, List.insertionSort]
    · have hne : sortLe D ≠ [] := by
        intro hnil
        rw [hnil] at hSlen
        simp at hSlen
        omega
      have hB : bestK k D = sortLe D := by
        unfold bestK
        exact List.take_of_length_le (by omega)
      rw [hB]
      have hlast : (sortLe D).getLast? = some ((sortLe D).getLast hne) :=
        List.getLast?_eq_getLast_of_ne_nil hne
      have hθ : (sortLe D).getLastD 0 = (sortLe D).getLast hne := by
        rw [List.getLastD_eq_getLast?, hlast]
        rfl
      have hcount : (sortLe D).countP
          (fun d => decide (d ≤ (sortLe D).getLastD 0)) = (sortLe D).length := by
        refine List.countP_eq_length.2 fun b hb => ?_
        refine decide_eq_true ?_
        rw [hθ]
        exact sorted_le_getLast _ _ hSsorted hlast b hb
      rw [hcount, hSlen]
      omega
  · push_neg at hN
    have hkS : k < (sortLe D).length := by omega
    have hk1S : k - 1 < (sortLe D).length := by omega
    have hθeq : (bestK k D).getLastD 0 = (sortLe D).getD (k - 1) 0 := by
      unfold bestK
      have htake_len : ((sortLe D).take k).length = k := by
        rw [List.length_take]
        omega
      rw [List.getLastD_eq_getLast?, List.getLast?_eq_getElem?, htake_len,
        List.getElem?_take, if_pos (by omega : k - 1 < k),
        List.getD_eq_getElem?_getD]
    rw [hθeq]
    set θ := (sortLe D).getD (k - 1) 0 with hθdef
    have hgd1 : θ = (sortLe D).get ⟨k - 1, hk1S⟩ := List.getD_eq_getElem _ 0 hk1S
    have hgdk : (sortLe D).getD k 0 = (sortLe D).get ⟨k, hkS⟩ :=
      List.getD_eq_getElem _ 0 hkS
    have hlt : θ < (sortLe D).getD k 0 := hnotie hN
    have hsplit : (sortLe D).countP (fun d => decide (d ≤ θ)) =
        ((sortLe D).take k).countP (fun d => decide (d ≤ θ)) +
          ((sortLe D).drop k).countP (fun d => decide (d ≤ θ)) := by
      conv_lhs => rw [← List.take_append_drop k (sortLe D)]
      rw [List.countP_append]
    rw [hsplit]
    have htake_len : ((sortLe D).take k).length = k := by
      rw [List.length_take]
      omega
    have htake_last : ((sortLe D).take k).getLast? = some θ := by
      rw [List.getLast?_eq_getElem?, htake_len, List.getElem?_take,
        if_pos (by omega : k - 1 < k), hgd1]
      exact List.getElem?_eq_getElem hk1S
    have hcount_take : ((sortLe D).take k).countP
        (fun d => decide (d ≤ θ)) = k := by
      rw [List.countP_eq_length.2, htake_len]
      intro b hb
      refine decide_eq_true ?_
      exact sorted_le_getLast _ _ (hSsorted.sublist (List.take_sublist _ _))
        htake_last b hb
    have hcount_drop : ((sortLe D).drop k).countP
        (fun d => decide (d ≤ θ)) = 0 := by
      refine List.countP_eq_zero.2 fun b hb => ?_
      simp only [decide_eq_true_eq]
      intro hble
      have hdropc : (sortLe D).drop k =
          (sortLe D).get ⟨k, hkS⟩ :: (sortLe D).drop (k + 1) :=
        List.drop_eq_getElem_cons hkS
      have hkb : (sortLe D).get ⟨k, hkS⟩ ≤ b := by
        rw [hdropc] at hb
        rcases List.mem_cons.1 hb with rfl | hb'
        · exact le_refl _
        · have hds : ((sortLe D).drop k).Sorted (· ≤ ·) :=
            hSsorted.sublist (List.drop_sublist _ _)
          rw [hdropc, List.sorted_cons] at hds
          exact hds.1 b hb'
      have hcontr : (sortLe D).getD k 0 ≤ θ := by
        rw [hgdk]
        exact le_trans hkb hble
      exact absurd (lt_of_le_of_lt hcontr hlt) (lt_irrefl _)
    rw [hcount_take, hcount_drop]
    omega

/-- Absence of a boundary tie transfers along permutations of the
distances. -/
theorem noBoundaryTie_perm (k : ℕ) {D₁ D₂ : List ℚ} (hp : List.Perm D₁ D₂)
    (h : noBoundaryTie k D₁) : noBoundaryTie k D₂ := by
  unfold noBoundaryTie at h ⊢
  have hsort : sortLe D₂ = sortLe D₁ := by
    unfold sortLe
    exact List.eq_of_perm_of_sorted
      ((List.perm_insertionSort _ _).trans (hp.symm.trans
        (List.perm_insertionSort _ _).symm))
      (List.sorted_insertionSort _ _) (List.sorted_insertionSort _ _)
  rw [hsort, ← hp.length_eq]
  exact h

/-- Under the no-boundary-tie condition, the final heap of a query is, as a
set of entries, exactly the set of ingested entries whose distance is at
most the k-th smallest distance — a characterisation independent of the
stream order. -/
theorem final_heap_toFinset (k : ℕ) (hk : 1 ≤ k) (qv : List ℚ)
    (stream : List (String × List ℚ)) (hnd : (stream.map Prod.fst).Nodup)
    (hnotie : noBoundaryTie k (stream.map fun p => sqDist qv p.2)) :
    (runHeapL2 k qv stream []).toFinset =
      ((stream.map (entryOf qv)).filter fun e =>
        decide (-e.1 ≤ (bestK k (stream.map fun p => sqDist qv p.2)).getLastD 0)).toFinset := by
  have hinv : HeapInv k qv stream (runHeapL2 k qv stream []) := by
    have h0 := heapInv_run k hk qv stream [] [] (heapInv_nil k qv)
      (by simpa using hnd)
    simpa using h0
  have hHnodup : (runHeapL2 k qv stream []).Nodup := hinv.nodup.of_map _
  have htag_nodup : (stream.map (entryOf qv)).Nodup := by
    refine List.Nodup.of_map (fun e => e.2) ?_
    have : (stream.map (entryOf qv)).map (fun e => e.2) = stream.map Prod.fst := by
      rw [List.map_map]
      rfl
    rw [this]
    exact hnd
  have hHlen : (runHeapL2 k qv stream []).length = min k stream.length := by
    have h1 := heapDists_length (runHeapL2 k qv stream [])
    rw [hinv.dists, bestK_length] at h1
    simpa using h1.symm
  have hmem_le : ∀ e ∈ runHeapL2 k qv stream [],
      -e.1 ≤ (bestK k (stream.map fun p => sqDist qv p.2)).getLastD 0 := by
    intro e he
    have hdmem : -e.1 ∈ heapDists (runHeapL2 k qv stream []) := by
      unfold heapDists
      rw [List.mem_reverse]
      exact List.mem_map.2 ⟨e, he, rfl⟩
    rw [hinv.dists] at hdmem
    have hne : bestK k (stream.map fun p => sqDist qv p.2) ≠ [] := by
      intro hnil
      rw [hnil] at hdmem
      simp at hdmem
    have hlast := List.getLast?_eq_getLast_of_ne_nil hne
    have hθ : (bestK k (stream.map fun p => sqDist qv p.2)).getLastD 0 =
        (bestK k (stream.map fun p => sqDist qv p.2)).getLast hne := by
      rw [List.getLastD_eq_getLast?, hlast]
      rfl
    rw [hθ]
    exact sorted_le_getLast _ _ (bestK_sorted k _) hlast _ hdmem
  refine (Finset.eq_of_subset_of_card_le ?_ ?_).symm.symm
  · intro e he
    rw [List.mem_toFinset] at he
    rw [List.mem_toFinset, List.mem_filter]
    rcases hinv.mem e he with ⟨p, hp, hep⟩
    exact ⟨List.mem_map.2 ⟨p, hp, hep.symm⟩, decide_eq_true (hmem_le e he)⟩
  · have hcard1 : (runHeapL2 k qv stream []).toFinset.card = min k stream.length := by
      rw [List.toFinset_card_of_nodup hHnodup, hHlen]
    have hcard2 : (((stream.map (entryOf qv)).filter fun e =>
        decide (-e.1 ≤ (bestK k (stream.map fun p => sqDist qv p.2)).getLastD 0)).toFinset).card =
        min k stream.length := by
      rw [List.toFinset_card_of_nodup (htag_nodup.filter _)]
      rw [← List.countP_eq_length_filter]
      have hmapc : (stream.map (entryOf qv)).countP (fun e =>
          decide (-e.1 ≤ (bestK k (stream.map fun p => sqDist qv p.2)).getLastD 0)) =
          stream.countP (fun p => decide (sqDist qv p.2 ≤
            (bestK k (stream.map fun p => sqDist qv p.2)).getLastD 0)) := by
        rw [List.countP_map]
        refine List.countP_congr fun p _ => ?_
        simp only [Function.comp, decide_eq_true_eq]
        unfold entryOf
        rw [neg_neg]
      rw [hmapc]
      have hmapc2 : stream.countP (fun p => decide (sqDist qv p.2 ≤
          (bestK k (stream.map fun p => sqDist qv p.2)).getLastD 0)) =
          (stream.map fun p => sqDist qv p.2).countP (fun d => decide (d ≤
            (bestK k (stream.map fun p => sqDist qv p.2)).getLastD 0)) := by
        rw [List.countP_map]
        rfl
      rw [hmapc2, countP_le_threshold k hk _ hnotie]
      rw [List.length_map]
    rw [hcard1, hcard2]

/-- Taking finsets commutes with mapping the id projection. -/
theorem toFinset_map_snd (l : List (ℚ × String)) :
    (l.map fun e => e.2).toFinset = l.toFinset.image fun e => e.2 := by
  ext a
  simp

/-- C1, amended. For every stream of N update calls with pairwise-distinct
identifiers and matching dimensions, and every valid query index q, a
subsequent get_ground_truth call returns exactly min(N, k) identifiers of
ingested vectors, pairwise distinct, sorted by non-decreasing true distance
to query q under the l2 metric, and the multiset of their distances is
exactly the min(N, k) smallest distances among all N ingested vectors. The
original claim's additional assertion that a tie for the k-th slot is
always resolved in favor of the first-seen identifier is false (see the
counterexample): a newcomer that ties the current worst is indeed
discarded, but an eviction among several retained entries tied at the worst
distance removes the lexicographically least identifier, regardless of
arrival order. The theorem is stated for the l2 metric: the script
constructs its tracker with space_type l2 (line 602, the only construction
site), matching the l2 space_type of the index mapping, so l2 is the
configured metric of every run. Distances are represented by their squares;
the last conjunct states sortedness of the true square-root distances. -/
theorem C1_ground_truth_amended (qs : List (List ℚ)) (k : ℕ) (hk : 1 ≤ k)
    (stream : List (String × List ℚ)) (i : ℕ) (hi : i < qs.length)
    (hnd : (stream.map Prod.fst).Nodup)
    (hdim : ∀ q ∈ qs, ∀ p ∈ stream, q.length = p.2.length) :
    ∃ entries : List (ℚ × String),
      (runUpdates (GroundTruthTracker.init qs k "l2") stream).get_ground_truth
          (i : ℤ) = Except.ok (entries.map fun e => e.2) ∧
      entries.length = min stream.length k ∧
      (entries.map fun e => e.2).Nodup ∧
      (∀ e ∈ entries, ∃ p ∈ stream, e = entryOf (qs.getD i []) p) ∧
      entries.map (fun e => -e.1) =
        bestK k (stream.map fun p => sqDist (qs.getD i []) p.2) ∧
      (entries.map fun e => Real.sqrt ((-e.1 : ℚ) : ℝ)).Sorted (· ≤ ·) ∧
      (noBoundaryTie k (stream.map fun p => sqDist (qs.getD i []) p.2) →
        (entries.map fun e => e.2).toFinset =
          ((stream.filter fun p => decide (sqDist (qs.getD i []) p.2 ≤
            (bestK k (stream.map fun p =>
              sqDist (qs.getD i []) p.2)).getLastD 0)).map Prod.fst).toFinset) := by
  obtain ⟨entries, hok, hdists, hmem, hnodup, hfin⟩ :=
    run_l2_ground_truth qs k hk stream i hi hnd hdim
  refine ⟨entries, hok, ?_, hnodup, hmem, hdists, ?_, ?_⟩
  · have hlen1 : (entries.map fun e => -e.1).length = entries.length := by simp
    rw [hdists, bestK_length] at hlen1
    simp only [List.length_map] at hlen1
    omega
  · have hsor : (entries.map fun e => -e.1).Sorted (· ≤ ·) := by
      rw [hdists]
      exact bestK_sorted k _
    rw [List.Sorted, List.pairwise_map]
    rw [List.Sorted, List.pairwise_map] at hsor
    exact hsor.imp fun hab => Real.sqrt_le_sqrt (by exact_mod_cast hab)
  · intro hnotie
    rw [toFinset_map_snd, hfin,
      final_heap_toFinset k hk (qs.getD i []) stream hnd hnotie,
      ← toFinset_map_snd]
    congr 1
    rw [List.filter_map, List.map_map]
    have hfilter : stream.filter ((fun e : ℚ × String =>
        decide (-e.1 ≤ (bestK k (stream.map fun p =>
          sqDist (qs.getD i []) p.2)).getLastD 0)) ∘ entryOf (qs.getD i [])) =
        stream.filter fun p => decide (sqDist (qs.getD i []) p.2 ≤
          (bestK k (stream.map fun p =>
            sqDist (qs.getD i []) p.2)).getLastD 0) := by
      refine List.filter_congr fun a _ => ?_
      simp only [Function.comp]
      refine decide_eq_decide.2 ?_
      unfold entryOf
      rw [neg_neg]
    rw [hfilter]
    exact List.map_congr_left fun a _ => rfl

/-- Witness for C1 amended, at the concrete boundary-tie instance also used
by the counterexample: one 1-dimensional query [0], k = 2, stream
(a, [5]), (b, [5]), (c, [4]). -/
theorem C1_ground_truth_amended_witness :
    ∃ entries : List (ℚ × String),
      (runUpdates (GroundTruthTracker.init [[0]] 2 "l2")
          [("a", [5]), ("b", [5]), ("c", [4])]).get_ground_truth
          ((0 : ℕ) : ℤ) = Except.ok (entries.map fun e => e.2) ∧
      entries.length = min [("a", [5]), ("b", [5]), ("c", [4])].length 2 ∧
      (entries.map fun e => e.2).Nodup ∧
      (∀ e ∈ entries, ∃ p ∈ [(("a" : String), [(5 : ℚ)]), ("b", [5]), ("c", [4])],
        e = entryOf ([[(0 : ℚ)]].getD 0 []) p) ∧
      entries.map (fun e => -e.1) =
        bestK 2 ([(("a" : String), [(5 : ℚ)]), ("b", [5]), ("c", [4])].map
          fun p => sqDist ([[(0 : ℚ)]].getD 0 []) p.2) ∧
      (entries.map fun e => Real.sqrt ((-e.1 : ℚ) : ℝ)).Sorted (· ≤ ·) ∧
      (noBoundaryTie 2 ([(("a" : String), [(5 : ℚ)]), ("b", [5]), ("c", [4])].map
          fun p => sqDist ([[(0 : ℚ)]].getD 0 []) p.2) →
        (entries.map fun e => e.2).toFinset =
          (([(("a" : String), [(5 : ℚ)]), ("b", [5]), ("c", [4])].filter
            fun p => decide (sqDist ([[(0 : ℚ)]].getD 0 []) p.2 ≤
              (bestK 2 ([(("a" : String), [(5 : ℚ)]), ("b", [5]), ("c", [4])].map
                fun p => sqDist ([[(0 : ℚ)]].getD 0 []) p.2)).getLastD 0)).map
            Prod.fst).toFinset) :=
  C1_ground_truth_amended [[0]] 2 (by norm_num)
    [("a", [5]), ("b", [5]), ("c", [4])] 0 (by norm_num)
    (by decide) (by decide)

/-- Counterexample to C1 as stated. Query [0] with the l2 metric and k = 2;
the stream ingests a at distance 5, b at distance 5, then c at distance 4.
The k-th slot is tied between a and b, and the first-seen identifier among
the tied ones is a, so the claim's first-seen-wins rule predicts the
ground-truth set to be c and a. The code, however, returns c and b: when c
arrives, heapq evicts the root of the full heap, which is the tuple-minimal
entry (-5, a) — among entries tied at the worst distance the
lexicographically least identifier, not the last-seen one — so the
first-seen a is evicted. -/
theorem C1_first_seen_tie_counterexample :
    (runUpdates (GroundTruthTracker.init [[0]] 2 "l2")
        [("a", [5]), ("b", [5]), ("c", [4])]).get_ground_truth 0 =
      Except.ok ["c", "b"] ∧ "a" ∉ (["c", "b"] : List String) := by
  constructor
  · have h1 : GroundTruthTracker.update ⟨[[0]], 2, "l2", [[]]⟩ "a" [5] =
        (⟨[[0]], 2, "l2", [[(-25, "a")]]⟩, none) := by
      rw [update_l2 2 [[0]] [[]] "a" [5] (by norm_num) (by decide)]
      norm_num [updateHeap, sqDist, normSq, dot, heappush, List.orderedInsert]
    have h2 : GroundTruthTracker.update ⟨[[0]], 2, "l2", [[(-25, "a")]]⟩ "b" [5] =
        (⟨[[0]], 2, "l2", [[(-25, "a"), (-25, "b")]]⟩, none) := by
      rw [update_l2 2 [[0]] [[(-25, "a")]] "b" [5] (by norm_num) (by decide)]
      norm_num [updateHeap, sqDist, normSq, dot, heappush, List.orderedInsert,
        entryLE, entryLeB, pyStrLt, charListLt,
        (show ('a' : Char) < 'b' by decide), (show ¬('b' : Char) < 'a' by decide)]
    have h3 : GroundTruthTracker.update
        ⟨[[0]], 2, "l2", [[(-25, "a"), (-25, "b")]]⟩ "c" [4] =
        (⟨[[0]], 2, "l2", [[(-25, "b"), (-16, "c")]]⟩, none) := by
      rw [update_l2 2 [[0]] [[(-25, "a"), (-25, "b")]] "c" [4] (by norm_num)
        (by decide)]
      norm_num [updateHeap, sqDist, normSq, dot, heappush, heapreplace,
        List.orderedInsert, entryLE, entryLeB, pyStrLt, charListLt,
        (show ('b' : Char) < 'c' by decide), (show ¬('c' : Char) < 'b' by decide)]
    have hrun : runUpdates (GroundTruthTracker.init [[0]] 2 "l2")
        [("a", [5]), ("b", [5]), ("c", [4])] =
        ⟨[[0]], 2, "l2", [[(-25, "b"), (-16, "c")]]⟩ := by
      show runUpdates ⟨[[0]], 2, "l2", [[]]⟩ [("a", [5]), ("b", [5]), ("c", [4])] = _
      rw [runUpdates, h1]
      rw [runUpdates, h2]
      rw [runUpdates, h3]
      rfl
    rw [hrun]
    unfold GroundTruthTracker.get_ground_truth
    norm_num [pyIndex, Except.map, sortByDist, List.insertionSort,
      List.orderedInsert, keyLE]
  · decide

/-- The id set returned by get_ground_truth is the image of the final
per-query heap, as a finset. -/
theorem run_l2_gt_toFinset (qs : List (List ℚ)) (k : ℕ)
    (stream : List (String × List ℚ)) (i : ℕ) (hi : i < qs.length)
    (hdim : ∀ q ∈ qs, ∀ p ∈ stream, q.length = p.2.length) :
    ((runUpdates (GroundTruthTracker.init qs k "l2") stream).get_ground_truth
        (i : ℤ)).map List.toFinset =
      Except.ok ((runHeapL2 k (qs.getD i []) stream []).toFinset.image
        fun e => e.2) := by
  have hqv : qs.getD i [] = qs.get ⟨i, hi⟩ := List.getD_eq_getElem qs [] hi
  have hfin : (runUpdates (GroundTruthTracker.init qs k "l2") stream).heaps =
      List.zipWith (fun q h => runHeapL2 k q stream h) qs (qs.map fun _ => []) :=
    runUpdates_l2_heaps k qs stream (qs.map fun _ => []) (by simp) hdim
  have hlenf :
      (runUpdates (GroundTruthTracker.init qs k "l2") stream).heaps.length =
        qs.length := by
    rw [hfin, List.length_zipWith]
    simp
  have hif : i < (runUpdates (GroundTruthTracker.init qs k "l2") stream).heaps.length := by
    rw [hlenf]
    exact hi
  have hgeti :
      (runUpdates (GroundTruthTracker.init qs k "l2") stream).heaps.get ⟨i, hif⟩ =
        runHeapL2 k (qs.getD i []) stream [] := by
    rw [hqv]
    simp only [hfin, List.get_eq_getElem, List.getElem_zipWith, List.getElem_map]
  show ((pyIndex _ _).map _).map _ = _
  rw [pyIndex_natCast _ i hif, hgeti]
  show Except.ok (((sortByDist _).map fun e => e.2).toFinset) = _
  rw [List.toFinset_eq_of_perm _ _ ((perm_sortByDist _).map fun e => e.2),
    toFinset_map_snd]

/-- C7: feeding the same multiset of (identifier, vector) pairs in any
permutation yields the same final ground-truth identifier set per query,
provided no two distinct identifiers are tied in distance exactly at the
k-th boundary (the claim's stated exception). -/
theorem C7_order_independence (qs : List (List ℚ)) (k : ℕ) (hk : 1 ≤ k)
    (s₁ s₂ : List (String × List ℚ)) (hperm : List.Perm s₁ s₂)
    (i : ℕ) (hi : i < qs.length) (hnd : (s₁.map Prod.fst).Nodup)
    (hdim : ∀ q ∈ qs, ∀ p ∈ s₁, q.length = p.2.length)
    (hnotie : noBoundaryTie k (s₁.map fun p => sqDist (qs.getD i []) p.2)) :
    ((runUpdates (GroundTruthTracker.init qs k "l2") s₁).get_ground_truth
        (i : ℤ)).map List.toFinset =
      ((runUpdates (GroundTruthTracker.init qs k "l2") s₂).get_ground_truth
        (i : ℤ)).map List.toFinset := by
  have hnd₂ : (s₂.map Prod.fst).Nodup := ((hperm.map Prod.fst).nodup_iff).1 hnd
  have hdim₂ : ∀ q ∈ qs, ∀ p ∈ s₂, q.length = p.2.length :=
    fun q hq p hp => hdim q hq p (hperm.mem_iff.2 hp)
  have hpermD : List.Perm (s₁.map fun p => sqDist (qs.getD i []) p.2)
      (s₂.map fun p => sqDist (qs.getD i []) p.2) := hperm.map _
  have hnotie₂ : noBoundaryTie k (s₂.map fun p => sqDist (qs.getD i []) p.2) :=
    noBoundaryTie_perm k hpermD hnotie
  rw [run_l2_gt_toFinset qs k s₁ i hi hdim, run_l2_gt_toFinset qs k s₂ i hi hdim₂]
  have hbk : bestK k (s₂.map fun p => sqDist (qs.getD i []) p.2) =
      bestK k (s₁.map fun p => sqDist (qs.getD i []) p.2) :=
    bestK_perm k hpermD.symm
  have h1 := final_heap_toFinset k hk (qs.getD i []) s₁ hnd hnotie
  have h2 := final_heap_toFinset k hk (qs.getD i []) s₂ hnd₂ hnotie₂
  rw [hbk] at h2
  have hfilters : List.Perm
      ((s₁.map (entryOf (qs.getD i []))).filter fun e =>
        decide (-e.1 ≤ (bestK k (s₁.map fun p =>
          sqDist (qs.getD i []) p.2)).getLastD 0))
      ((s₂.map (entryOf (qs.getD i []))).filter fun e =>
        decide (-e.1 ≤ (bestK k (s₁.map fun p =>
          sqDist (qs.getD i []) p.2)).getLastD 0)) :=
    (hperm.map (entryOf (qs.getD i []))).filter _
  rw [h1, h2, List.toFinset_eq_of_perm _ _ hfilters]

/-- Witness for C7 at a concrete instance: query [0], k = 1, the stream
(a, [1]), (b, [2]) against its reversal; the distances 1 and 4 have no tie
at the boundary. -/
theorem C7_order_independence_witness :
    ((runUpdates (GroundTruthTracker.init [[0]] 1 "l2")
        [("a", [1]), ("b", [2])]).get_ground_truth ((0 : ℕ) : ℤ)).map
        List.toFinset =
      ((runUpdates (GroundTruthTracker.init [[0]] 1 "l2")
        [("b", [2]), ("a", [1])]).get_ground_truth ((0 : ℕ) : ℤ)).map
        List.toFinset :=
  C7_order_independence [[0]] 1 (by norm_num)
    [("a", [1]), ("b", [2])] [("b", [2]), ("a", [1])]
    (List.Perm.swap _ _ _) 0 (by norm_num) (by decide) (by decide)
    (by
      intro hlen
      norm_num [sortLe, sqDist, normSq, dot, List.insertionSort,
        List.orderedInsert, List.getD])

/-- Counterexample to C2 as stated: line 319 divides by len(ground_truth),
the raw length of the ground-truth list, not by the size of its id set, so
duplicate identifiers in the ground-truth list deflate the score: the
recall of the two-element list [a, a] with itself is 1/2, not 1. -/
theorem C2_duplicate_denominator_counterexample :
    calculate_recall ["a", "a"] ["a", "a"] = 1 / 2 ∧
    calculate_recall ["a", "a"] ["a", "a"] ≠ 1 := by
  have h : calculate_recall ["a", "a"] ["a", "a"] = 1 / 2 := by
    unfold calculate_recall
    rw [if_neg (by decide : ¬((["a", "a"] : List String) = []))]
    have hc : (((["a", "a"] : List String)).toFinset ∩
        ((["a", "a"] : List String)).toFinset).card = 1 := by decide
    rw [hc]
    norm_num
  refine ⟨h, ?_⟩
  rw [h]
  norm_num

/-- C2, amended: calculate_recall returns 0.0 for an empty ground-truth list
and otherwise divides the size of the intersection of the two id sets by the
raw length of the ground-truth list; duplicates in the approximate list
never change the score, and the set-based formula of the spec, including a
recall of 1 for a non-empty list against itself, holds exactly when the
ground-truth list is duplicate-free; empty approximate or empty ground
truth scores 0. -/
theorem C2_calculate_recall_amended (approx gt : List String) :
    calculate_recall approx gt =
      (if gt = [] then 0 else
        ((approx.toFinset ∩ gt.toFinset).card : ℚ) / (gt.length : ℚ)) ∧
    (∀ a' : List String, a'.toFinset = approx.toFinset →
      calculate_recall a' gt = calculate_recall approx gt) ∧
    (gt.Nodup →
      calculate_recall approx gt =
        (if gt = [] then 0 else
          ((approx.toFinset ∩ gt.toFinset).card : ℚ) / (gt.toFinset.card : ℚ))) ∧
    (approx ≠ [] → approx.Nodup → calculate_recall approx approx = 1) ∧
    calculate_recall [] gt = 0 ∧
    calculate_recall approx [] = 0 := by
  refine ⟨rfl, ?_, ?_, ?_, ?_, ?_⟩
  · intro a' ha
    unfold calculate_recall
    by_cases hgt : gt = []
    · rw [if_pos hgt, if_pos hgt]
    · rw [if_neg hgt, if_neg hgt, ha]
  · intro hnd
    unfold calculate_recall
    by_cases hgt : gt = []
    · rw [if_pos hgt, if_pos hgt]
    · rw [if_neg hgt, if_neg hgt, List.toFinset_card_of_nodup hnd]
  · intro hne hnd
    unfold calculate_recall
    rw [if_neg hne, Finset.inter_self, List.toFinset_card_of_nodup hnd]
    refine div_self ?_
    have hpos : 0 < approx.length := List.length_pos.2 hne
    exact_mod_cast Nat.pos_iff_ne_zero.1 hpos
  · unfold calculate_recall
    by_cases hgt : gt = []
    · rw [if_pos hgt]
    · rw [if_neg hgt]
      simp
  · unfold calculate_recall
    rw [if_pos rfl]

/-- Witness for the amended C2: duplicates in the approximate list do not
change the score, a duplicate-free ground-truth list recovers the set-based
formula, and recall of a non-empty duplicate-free list with itself is 1. -/
theorem C2_calculate_recall_amended_witness :
    calculate_recall ["a", "a"] ["b", "a"] = calculate_recall ["a"] ["b", "a"] ∧
    calculate_recall ["a"] ["b", "a"] =
      (if (["b", "a"] : List String) = [] then 0 else
        (((["a"] : List String).toFinset ∩
          (["b", "a"] : List String).toFinset).card : ℚ) /
          (((["b", "a"] : List String).toFinset.card : ℚ))) ∧
    calculate_recall ["a", "b"] ["a", "b"] = 1 :=
  ⟨(C2_calculate_recall_amended ["a"] ["b", "a"]).2.1 ["a", "a"] (by decide),
    (C2_calculate_recall_amended ["a"] ["b", "a"]).2.2.1 (by decide),
    (C2_calculate_recall_amended ["a", "b"] []).2.2.2.1 (by decide) (by decide)⟩

/-- C9: the recall value is always between 0.0 and 1.0. -/
theorem C9_recall_bounds (approx gt : List String) :
    0 ≤ calculate_recall approx gt ∧ calculate_recall approx gt ≤ 1 := by
  unfold calculate_recall
  by_cases h : gt = []
  · rw [if_pos h]
    norm_num
  · rw [if_neg h]
    have hpos : 0 < (gt.length : ℚ) := by
      have hlp : 0 < gt.length := List.length_pos.2 h
      exact_mod_cast hlp
    constructor
    · exact div_nonneg (Nat.cast_nonneg _) (le_of_lt hpos)
    · rw [div_le_one hpos]
      have h1 : (approx.toFinset ∩ gt.toFinset).card ≤ gt.toFinset.card :=
        Finset.card_le_card Finset.inter_subset_right
      have h2 : gt.toFinset.card ≤ gt.length := gt.toFinset_card_le
      exact_mod_cast le_trans h1 h2

/-- Counterexample to C3 as stated: constructing a tracker with the
unsupported metric name foo succeeds — the constructor stores the arguments
and creates the per-query heap without any validation — and the
UnsupportedMetric ValueError only surfaces at the first update call. -/
theorem C3_construction_counterexample :
    (GroundTruthTracker.init [[0]] 1 "foo").heaps = [[]] ∧
    (GroundTruthTracker.init [[0]] 1 "foo").update "a" [1] =
      (GroundTruthTracker.init [[0]] 1 "foo",
        some "Unsupported space_type: foo") := by
  constructor
  · rfl
  · rfl

/-- C3 amended: construction accepts any metric name without validation;
for a tracker built with an unsupported metric and at least one query
vector, the UnsupportedMetric ValueError is raised by the first update
call, leaving the tracker unchanged. -/
theorem C3_unsupported_metric_amended (qs : List (List ℚ)) (k : ℕ)
    (st : String) (h1 : st ≠ "l2") (h2 : st ≠ "cosine") (hqs : qs ≠ [])
    (doc_id : String) (v : List ℚ) :
    (GroundTruthTracker.init qs k st).update doc_id v =
      (GroundTruthTracker.init qs k st,
        some ("Unsupported space_type: " ++ st)) := by
  obtain ⟨q, qs', rfl⟩ := List.exists_cons_of_ne_nil hqs
  unfold GroundTruthTracker.update GroundTruthTracker.init
  rw [List.map_cons, updateLoop]
  rw [show distOf st q v = Except.error ("Unsupported space_type: " ++ st) from by
    unfold distOf
    rw [if_neg h1, if_neg h2]]

/-- Witness for C3 amended at the metric name foo. -/
theorem C3_unsupported_metric_amended_witness :
    (GroundTruthTracker.init [[0]] 1 "foo").update "a" [1] =
      (GroundTruthTracker.init [[0]] 1 "foo",
        some ("Unsupported space_type: " ++ "foo")) :=
  C3_unsupported_metric_amended [[0]] 1 "foo" (by decide) (by decide)
    (by decide) "a" [1]

/-- Counterexample to C10 as stated: on a tracker with an unsupported
metric but zero query vectors, update raises no error at all — the
per-query loop has no iterations — and returns with the state unchanged. -/
theorem C10_empty_queries_counterexample :
    (GroundTruthTracker.init [] 3 "foo").update "a" [1] =
      (GroundTruthTracker.init [] 3 "foo", none) := rfl

/-- C10 amended: on a well-formed tracker whose space_type is neither l2
nor cosine, update raises the ValueError during the first per-query
iteration, before any heap operation, leaving every per-query heap exactly
as it was — provided there is at least one query vector; with zero query
vectors no error is raised and the state is likewise unchanged. -/
theorem C10_unsupported_update_amended (t : GroundTruthTracker)
    (doc_id : String) (v : List ℚ)
    (h1 : t.space_type ≠ "l2") (h2 : t.space_type ≠ "cosine")
    (hlen : t.heaps.length = t.query_vectors.length) :
    (t.query_vectors ≠ [] →
      t.update doc_id v = (t, some ("Unsupported space_type: " ++ t.space_type))) ∧
    (t.query_vectors = [] → t.update doc_id v = (t, none)) := by
  obtain ⟨qs, k, st, hs⟩ := t
  simp only at h1 h2 hlen ⊢
  constructor
  · intro hqs
    obtain ⟨q, qs', rfl⟩ := List.exists_cons_of_ne_nil hqs
    obtain ⟨h, hs', rfl⟩ : ∃ h hs', hs = h :: hs' := by
      cases hs with
      | nil => simp at hlen
      | cons h hs' => exact ⟨h, hs', rfl⟩
    unfold GroundTruthTracker.update
    show (_, _) = _
    rw [updateLoop]
    rw [show distOf st q v = Except.error ("Unsupported space_type: " ++ st) from by
      unfold distOf
      rw [if_neg h1, if_neg h2]]
  · intro hqs
    subst hqs
    have hhs : hs = [] := List.length_eq_zero.1 (by simpa using hlen)
    subst hhs
    rfl

/-- Witness for C10 amended: a populated tracker with the metric name xyz. -/
theorem C10_unsupported_update_amended_witness :
    (⟨[[0]], 5, "xyz", [[]]⟩ : GroundTruthTracker).update "a" [2] =
      (⟨[[0]], 5, "xyz", [[]]⟩, some ("Unsupported space_type: " ++ "xyz")) :=
  (C10_unsupported_update_amended ⟨[[0]], 5, "xyz", [[]]⟩ "a" [2]
    (by decide) (by decide) (by decide)).1 (by decide)

/-- Counterexample to C4 as stated: on a tracker with one query, the
negative index -1 does not raise an IndexError; Python list subscription
wraps it around to the last heap and get_ground_truth succeeds. -/
theorem C4_negative_index_counterexample :
    (GroundTruthTracker.init [[0]] 1 "l2").get_ground_truth (-1) =
      Except.ok [] := rfl

/-- C4 amended: get_ground_truth raises an IndexError exactly for indices
at or above Q or strictly below -Q; an in-range negative index is
interpreted Python-style as Q + index and succeeds like that nonnegative
index does. -/
theorem C4_index_out_of_range_amended (t : GroundTruthTracker) (i : ℤ)
    (hlen : t.heaps.length = t.query_vectors.length) :
    ((i < -(t.query_vectors.length : ℤ) ∨ (t.query_vectors.length : ℤ) ≤ i) →
      t.get_ground_truth i = Except.error "list index out of range") ∧
    ((-(t.query_vectors.length : ℤ) ≤ i ∧ i < 0) →
      t.get_ground_truth i = t.get_ground_truth (i + t.query_vectors.length)) := by
  constructor
  · intro h
    unfold GroundTruthTracker.get_ground_truth
    rw [pyIndex_out t.heaps i (by rw [hlen]; exact h)]
    rfl
  · intro h
    unfold GroundTruthTracker.get_ground_truth
    rw [pyIndex_neg t.heaps i (by rw [hlen]; exact h.1) h.2, hlen]

/-- Witness for C4 amended: index 5 raises on a single-query tracker while
index -1 wraps around to index 0. -/
theorem C4_index_out_of_range_amended_witness :
    (GroundTruthTracker.init [[0]] 1 "l2").get_ground_truth 5 =
      Except.error "list index out of range" ∧
    (GroundTruthTracker.init [[0]] 1 "l2").get_ground_truth (-1) =
      (GroundTruthTracker.init [[0]] 1 "l2").get_ground_truth
        (-1 + ([[(0 : ℚ)]].length : ℤ)) :=
  ⟨(C4_index_out_of_range_amended (GroundTruthTracker.init [[0]] 1 "l2") 5
      (by decide)).1 (by decide),
    (C4_index_out_of_range_amended (GroundTruthTracker.init [[0]] 1 "l2") (-1)
      (by decide)).2 (by decide)⟩

/-- C5, the code at the failing input: with 2-dimensional queries, updating
with the 1-dimensional vector [3] raises nothing — numpy broadcasts the
subtraction, so the tracker silently computes the distance sqrt 18
(squared: 18) and inserts it into the heap, instead of failing fast with a
DimensionMismatch error as the design requires. -/
theorem C5_dimension_broadcast_bug :
    (GroundTruthTracker.init [[0, 0]] 1 "l2").update "a" [3] =
      (⟨[[0, 0]], 1, "l2", [[(-18, "a")]]⟩, none) := by
  unfold GroundTruthTracker.update GroundTruthTracker.init
  norm_num [updateLoop, distOf, l2DistSq, npSub, Except.map, normSq, dot,
    List.headI, updateHeap, heappush, List.orderedInsert]

/-- C8: under the cosine metric, a zero-norm query or ingested vector is
assigned the distance 1.0 (norm positivity is tested on the squared norms,
an equivalent condition), the division by the product of norms only
happens under the positivity guard where its divisor is nonzero, and when
the guard fails no division is performed at all and the result is the
constant 1.0. -/
theorem C8_cosine_zero_norm (q v : List ℚ) :
    ((normSq q = 0 ∨ normSq v = 0) → distOf "cosine" q v = Except.ok 1) ∧
    (0 < normSq q ∧ 0 < normSq v → normSq q * normSq v ≠ 0) ∧
    (¬(0 < normSq q ∧ 0 < normSq v) → distOf "cosine" q v = Except.ok 1) := by
  have hd : distOf "cosine" q v = cosineDist q v := by
    unfold distOf
    rw [if_neg (by decide), if_pos rfl]
  refine ⟨?_, ?_, ?_⟩
  · intro h
    rw [hd]
    unfold cosineDist
    rw [if_neg ?_]
    intro hc
    rcases h with h | h
    · rw [h] at hc
      exact absurd hc.1 (lt_irrefl 0)
    · rw [h] at hc
      exact absurd hc.2 (lt_irrefl 0)
  · intro hc
    exact ne_of_gt (mul_pos hc.1 hc.2)
  · intro hc
    rw [hd]
    unfold cosineDist
    rw [if_neg hc]

/-- Witness for C8 at the zero vector [0] against [1]. -/
theorem C8_cosine_zero_norm_witness :
    distOf "cosine" [0] [1] = Except.ok 1 :=
  (C8_cosine_zero_norm [0] [1]).1 (Or.inl (by norm_num [normSq, dot]))

/-- A left fold of min starting at x stays in the list x :: xs. -/
theorem foldl_min_mem : ∀ (xs : List ℚ) (x : ℚ), xs.foldl min x ∈ x :: xs
  | [], x => List.mem_singleton_self x
  | y :: ys, x => by
    rw [List.foldl_cons]
    rcases List.mem_cons.1 (foldl_min_mem ys (min x y)) with h | h
    · rw [h]
      rcases min_choice x y with h' | h'
      · rw [h']
        exact List.mem_cons_self _ _
      · rw [h']
        exact List.mem_cons_of_mem _ (List.mem_cons_self _ _)
    · exact List.mem_cons_of_mem _ (List.mem_cons_of_mem _ h)

/-- A left fold of min starting at x bounds every element of x :: xs. -/
theorem foldl_min_le : ∀ (xs : List ℚ) (x : ℚ), ∀ y ∈ x :: xs, xs.foldl min x ≤ y
  | [], x => by
    intro y hy
    rcases List.mem_cons.1 hy with h | h
    · rw [h]
      exact le_refl x
    · simp at h
  | z :: zs, x => by
    intro y hy
    rw [List.foldl_cons]
    have ih := foldl_min_le zs (min x z)
    rcases List.mem_cons.1 hy with h | hy'
    · rw [h]
      exact le_trans (ih (min x z) (List.mem_cons_self _ _)) (min_le_left x z)
    · rcases List.mem_cons.1 hy' with h | hy''
      · rw [h]
        exact le_trans (ih (min x z) (List.mem_cons_self _ _)) (min_le_right x z)
      · exact ih y (List.mem_cons_of_mem _ hy'')

/-- A left fold of max starting at x stays in the list x :: xs. -/
theorem foldl_max_mem : ∀ (xs : List ℚ) (x : ℚ), xs.foldl max x ∈ x :: xs
  | [], x => List.mem_singleton_self x
  | y :: ys, x => by
    rw [List.foldl_cons]
    rcases List.mem_cons.1 (foldl_max_mem ys (max x y)) with h | h
    · rw [h]
      rcases max_choice x y with h' | h'
      · rw [h']
        exact List.mem_cons_self _ _
      · rw [h']
        exact List.mem_cons_of_mem _ (List.mem_cons_self _ _)
    · exact List.mem_cons_of_mem _ (List.mem_cons_of_mem _ h)

/-- A left fold of max starting at x dominates every element of x :: xs. -/
theorem foldl_max_ge : ∀ (xs : List ℚ) (x : ℚ), ∀ y ∈ x :: xs, y ≤ xs.foldl max x
  | [], x => by
    intro y hy
    rcases List.mem_cons.1 hy with h | h
    · rw [h]
      exact le_refl x
    · simp at h
  | z :: zs, x => by
    intro y hy
    rw [List.foldl_cons]
    have ih := foldl_max_ge zs (max x z)
    rcases List.mem_cons.1 hy with h | hy'
    · rw [h]
      exact le_trans (le_max_left x z) (ih (max x z) (List.mem_cons_self _ _))
    · rcases List.mem_cons.1 hy' with h | hy''
      · rw [h]
        exact le_trans (le_max_right x z) (ih (max x z) (List.mem_cons_self _ _))
      · exact ih y (List.mem_cons_of_mem _ hy'')

/-- C6 amended: the recall-summary block of test_search_with_stats is
silently skipped for an empty sample sequence — its guard is the
truthiness of the list, and no EmptySampleSet error exists in the code —
while for any non-empty sequence it reports the mean, the minimum, the
maximum and the population standard deviation (represented by its square,
the population variance). -/
theorem C6_recall_summary_amended :
    recallSummary [] = none ∧
    ∀ (x : ℚ) (xs : List ℚ), ∃ mean mn mx var,
      recallSummary (x :: xs) = some (mean, mn, mx, var) ∧
      mean * ((x :: xs).length : ℚ) = (x :: xs).sum ∧
      mn ∈ x :: xs ∧ (∀ y ∈ x :: xs, mn ≤ y) ∧
      mx ∈ x :: xs ∧ (∀ y ∈ x :: xs, y ≤ mx) ∧
      var * ((x :: xs).length : ℚ) =
        ((x :: xs).map fun r => (r - mean) ^ 2).sum := by
  refine ⟨rfl, fun x xs => ?_⟩
  have hn : (((x :: xs).length : ℚ)) ≠ 0 := by
    simp
    exact_mod_cast Nat.succ_ne_zero xs.length
  refine ⟨(x :: xs).sum / ((x :: xs).length : ℚ), xs.foldl min x, xs.foldl max x,
    ((x :: xs).map fun r =>
      (r - (x :: xs).sum / ((x :: xs).length : ℚ)) ^ 2).sum / ((x :: xs).length : ℚ),
    rfl, div_mul_cancel₀ _ hn, foldl_min_mem xs x, foldl_min_le xs x,
    foldl_max_mem xs x, foldl_max_ge xs x, div_mul_cancel₀ _ hn⟩

/-- Witness for C6 amended at the specification scenario 1.0, 0.5, 0.0. -/
theorem C6_recall_summary_amended_witness :
    ∃ mean mn mx var,
      recallSummary [1, 1/2, 0] = some (mean, mn, mx, var) ∧
      mean * (([1, 1/2, 0] : List ℚ).length : ℚ) = ([1, 1/2, 0] : List ℚ).sum ∧
      mn ∈ ([1, 1/2, 0] : List ℚ) ∧ (∀ y ∈ ([1, 1/2, 0] : List ℚ), mn ≤ y) ∧
      mx ∈ ([1, 1/2, 0] : List ℚ) ∧ (∀ y ∈ ([1, 1/2, 0] : List ℚ), y ≤ mx) ∧
      var * (([1, 1/2, 0] : List ℚ).length : ℚ) =
        (([1, 1/2, 0] : List ℚ).map fun r => (r - mean) ^ 2).sum :=
  C6_recall_summary_amended.2 1 [1/2, 0]

/-- Counterexample to C6 as stated: applied to an empty sequence of recall
samples, the summary block produces nothing and raises no error — there is
no EmptySampleSet failure in the code, the guard merely skips the block. -/
theorem C6_empty_summary_counterexample : recallSummary [] = none := rfl

/-- Squared norms are nonnegative: they are sums of squares. -/
theorem normSq_nonneg : ∀ v : List ℚ, 0 ≤ normSq v
  | [] => le_refl 0
  | x :: t => by
    have ih := normSq_nonneg t
    unfold normSq dot at ih ⊢
    rw [List.zipWith_cons_cons, List.sum_cons]
    exact add_nonneg (mul_self_nonneg x) ih

/-- Faithfulness of the squared representation of l2 distances: comparing
the true distances, the square roots of the represented values, is the
same as comparing the represented values, so the branch conditions, heap
contents and sort orders computed from the representation agree with those
of the source. -/
theorem sqDist_repr_faithful (q v w : List ℚ) :
    Real.sqrt ((sqDist q v : ℚ) : ℝ) ≤ Real.sqrt ((sqDist q w : ℚ) : ℝ) ↔
      sqDist q v ≤ sqDist q w := by
  rw [Real.sqrt_le_sqrt_iff (by exact_mod_cast normSq_nonneg _)]
  exact Rat.cast_le

/-- The map sending x to x times its absolute value is monotone in both
directions: it is the order-isomorphic signed square. -/
theorem mul_abs_le_iff (x y : ℝ) : x * |x| ≤ y * |y| ↔ x ≤ y := by
  by_cases hx : x < 0
  · by_cases hy : y < 0
    · rw [abs_of_neg hx, abs_of_neg hy]
      constructor
      · intro h
        nlinarith
      · intro h
        nlinarith
    · push_neg at hy
      rw [abs_of_neg hx, abs_of_nonneg hy]
      constructor
      · intro h
        linarith
      · intro h
        nlinarith
  · push_neg at hx
    by_cases hy : y < 0
    · rw [abs_of_nonneg hx, abs_of_neg hy]
      constructor
      · intro h
        nlinarith
      · intro h
        nlinarith
    · push_neg at hy
      rw [abs_of_nonneg hx, abs_of_nonneg hy]
      constructor
      · intro h
        nlinarith
      · intro h
        nlinarith

/-- The represented cosine similarity term of cosineDist equals s * abs s
for the true cosine similarity s = dot / (norm * norm), as real numbers. -/
theorem cosine_rep_value (q v : List ℚ) (hq : 0 < normSq q) (hv : 0 < normSq v) :
    (((if dot q v < 0 then -(dot q v * dot q v) else dot q v * dot q v) /
        (normSq q * normSq v) : ℚ) : ℝ) =
      ((dot q v : ℚ) : ℝ) /
          (Real.sqrt ((normSq q : ℚ) : ℝ) * Real.sqrt ((normSq v : ℚ) : ℝ)) *
        |((dot q v : ℚ) : ℝ) /
          (Real.sqrt ((normSq q : ℚ) : ℝ) * Real.sqrt ((normSq v : ℚ) : ℝ))| := by
  have hA : (0 : ℝ) < ((normSq q : ℚ) : ℝ) := by exact_mod_cast hq
  have hB : (0 : ℝ) < ((normSq v : ℚ) : ℝ) := by exact_mod_cast hv
  have hsA : 0 < Real.sqrt ((normSq q : ℚ) : ℝ) := Real.sqrt_pos.2 hA
  have hsB : 0 < Real.sqrt ((normSq v : ℚ) : ℝ) := Real.sqrt_pos.2 hB
  have hprod : 0 < Real.sqrt ((normSq q : ℚ) : ℝ) * Real.sqrt ((normSq v : ℚ) : ℝ) :=
    mul_pos hsA hsB
  have habs : |((dot q v : ℚ) : ℝ) /
      (Real.sqrt ((normSq q : ℚ) : ℝ) * Real.sqrt ((normSq v : ℚ) : ℝ))| =
      |((dot q v : ℚ) : ℝ)| /
        (Real.sqrt ((normSq q : ℚ) : ℝ) * Real.sqrt ((normSq v : ℚ) : ℝ)) := by
    rw [abs_div, abs_of_pos hprod]
  rw [habs, div_mul_div_comm]
  have hden : Real.sqrt ((normSq q : ℚ) : ℝ) * Real.sqrt ((normSq v : ℚ) : ℝ) *
      (Real.sqrt ((normSq q : ℚ) : ℝ) * Real.sqrt ((normSq v : ℚ) : ℝ)) =
      ((normSq q : ℚ) : ℝ) * ((normSq v : ℚ) : ℝ) := by
    rw [mul_mul_mul_comm, Real.mul_self_sqrt (le_of_lt hA),
      Real.mul_self_sqrt (le_of_lt hB)]
  rw [hden]
  rw [show (((if dot q v < 0 then -(dot q v * dot q v) else dot q v * dot q v) /
      (normSq q * normSq v) : ℚ) : ℝ) =
      ((if dot q v < 0 then -(dot q v * dot q v) else dot q v * dot q v : ℚ) : ℝ) /
        (((normSq q : ℚ) : ℝ) * ((normSq v : ℚ) : ℝ)) from by push_cast; ring]
  congr 1
  rw [apply_ite (fun r : ℚ => (r : ℝ))]
  by_cases hd : dot q v < 0
  · rw [if_pos hd, abs_of_neg (show ((dot q v : ℚ) : ℝ) < 0 by exact_mod_cast hd)]
    push_cast
    ring
  · rw [if_neg hd, abs_of_nonneg
      (show (0 : ℝ) ≤ ((dot q v : ℚ) : ℝ) by exact_mod_cast not_lt.1 hd)]
    push_cast
    ring

/-- Faithfulness of the represented cosine distance: for vectors with
positive norms, comparing the true cosine distances 1 - dot/(norm*norm) is
the same as comparing the rational values computed by cosineDist, so the
heap contents and sort orders computed from the representation agree with
those of the source; the representation moreover fixes the zero-norm
branch value 1.0, which corresponds to similarity 0. -/
theorem cosineDist_repr_faithful (q v w : List ℚ)
    (hq : 0 < normSq q) (hv : 0 < normSq v) (hw : 0 < normSq w) :
    (1 - ((dot q v : ℚ) : ℝ) /
        (Real.sqrt ((normSq q : ℚ) : ℝ) * Real.sqrt ((normSq v : ℚ) : ℝ)) ≤
      1 - ((dot q w : ℚ) : ℝ) /
        (Real.sqrt ((normSq q : ℚ) : ℝ) * Real.sqrt ((normSq w : ℚ) : ℝ))) ↔
    ((1 - (if dot q v < 0 then -(dot q v * dot q v) else dot q v * dot q v) /
        (normSq q * normSq v) : ℚ) ≤
      (1 - (if dot q w < 0 then -(dot q w * dot q w) else dot q w * dot q w) /
        (normSq q * normSq w) : ℚ)) := by
  rw [sub_le_sub_iff_left]
  rw [show ((1 - (if dot q v < 0 then -(dot q v * dot q v) else dot q v * dot q v) /
        (normSq q * normSq v) : ℚ) ≤
      (1 - (if dot q w < 0 then -(dot q w * dot q w) else dot q w * dot q w) /
        (normSq q * normSq w) : ℚ)) ↔
      (((1 - (if dot q v < 0 then -(dot q v * dot q v) else dot q v * dot q v) /
        (normSq q * normSq v) : ℚ) : ℝ) ≤
      ((1 - (if dot q w < 0 then -(dot q w * dot q w) else dot q w * dot q w) /
        (normSq q * normSq w) : ℚ) : ℝ)) from Rat.cast_le.symm]
  rw [show ((1 - (if dot q v < 0 then -(dot q v * dot q v) else dot q v * dot q v) /
      (normSq q * normSq v) : ℚ) : ℝ) =
      1 - (((if dot q v < 0 then -(dot q v * dot q v) else dot q v * dot q v) /
        (normSq q * normSq v) : ℚ) : ℝ) from by push_cast; ring]
  rw [show ((1 - (if dot q w < 0 then -(dot q w * dot q w) else dot q w * dot q w) /
      (normSq q * normSq w) : ℚ) : ℝ) =
      1 - (((if dot q w < 0 then -(dot q w * dot q w) else dot q w * dot q w) /
        (normSq q * normSq w) : ℚ) : ℝ) from by push_cast; ring]
  rw [sub_le_sub_iff_left]
  rw [cosine_rep_value q v hq hv, cosine_rep_value q w hq hw]
  exact (mul_abs_le_iff _ _).symm

end JVectorGT
